/-
Verification of the agent-orchestrator core against its design document.

This file gives a shallow embedding, in Lean 4, of the code paths of the
repository that the design document's claims speak about:

* the priority task queue and the orchestrator's task failure handling
  (`core/orchestration/orchestrator.py`),
* the supervisor's health check (`core/orchestration/supervisor.py`),
* the domain-event factories and the event store append
  (`core/events/models.py`, `core/events/store.py`),
* the tool executor's retry loop (`core/agents/tools.py`),
* the text tool-call parser and the agent runtime's observe-think-act loop
  (`core/agents/runtime.py`),
* the workflow engine (`core/workflows/engine.py`, `core/workflows/models.py`).

Python dictionaries and JSON payloads are modelled by an inductive `Json`
type; machine UUIDs become natural numbers; wall-clock instants become
integers (milliseconds).  `async` code in the source is cooperative and all
awaited results are consumed in program order, so it is embedded as ordinary
state-passing functions; external collaborators (the LLM provider, the task
executor, the tools) are parameters of the embedding.
-/

import Mathlib

set_option linter.unnecessarySimpa false

namespace AgentOrch

/-! ## Task model (`core/workflows/models.py`)

`Task` keeps the fields the claims depend on; free-form payload fields,
capability sets and timestamps that no claim mentions are omitted.
-/

/-- Task priority levels, `TaskPriority` in `models.py` (declaration order
LOW=0, NORMAL=1, HIGH=2, CRITICAL=3). -/
inductive TaskPriority where
  | low
  | normal
  | high
  | critical
deriving DecidableEq, Repr

/-- Numeric value of a priority, as in the Python `int` enum. -/
def TaskPriority.toNat : TaskPriority → Nat
  | .low => 0
  | .normal => 1
  | .high => 2
  | .critical => 3

/-- Task lifecycle status, `TaskStatus` in `models.py`. -/
inductive TaskStatus where
  | pending
  | queued
  | assigned
  | running
  | completed
  | failed
  | cancelled
  | timeout
deriving DecidableEq, Repr

/-- Statuses the design document calls terminal. -/
def TaskStatus.isTerminal : TaskStatus → Bool
  | .completed => true
  | .failed => true
  | .cancelled => true
  | .timeout => true
  | _ => false

/-- The `Task` record of `models.py`, restricted to the fields the claims
mention.  `task_id` stands for the UUID. -/
structure Task where
  task_id : Nat
  priority : TaskPriority
  status : TaskStatus
  retry_count : Nat
  max_retries : Nat
  error : Option String
deriving DecidableEq, Repr

/-- `Task.fail` in `models.py`: set status FAILED and record the error. -/
def Task.fail (t : Task) (error : String) : Task :=
  { t with status := TaskStatus.failed, error := some error }

/-- `Task.can_retry` in `models.py`: `retry_count < max_retries`. -/
def Task.canRetry (t : Task) : Bool :=
  t.retry_count < t.max_retries

/-! ## Priority queue (`core/orchestration/orchestrator.py`, class `TaskQueue`)

One FIFO queue per priority level; `get` scans `reversed(TaskPriority)`,
i.e. CRITICAL down to LOW, and pops the first non-empty queue.
-/

/-- The bank of per-priority FIFO queues (`TaskQueue._queues`); each
`asyncio.Queue` is a list whose head is the next element to be dequeued. -/
structure TaskQueue where
  queues : TaskPriority → List Task

/-- The scan order of `TaskQueue.get`: `reversed(TaskPriority)` reverses the
declaration order LOW, NORMAL, HIGH, CRITICAL. -/
def priorityScanOrder : List TaskPriority :=
  [TaskPriority.critical, TaskPriority.high, TaskPriority.normal, TaskPriority.low]

/-- `TaskQueue.put`: enqueue the task at the tail of its priority's queue. -/
def TaskQueue.put (q : TaskQueue) (t : Task) : TaskQueue :=
  ⟨Function.update q.queues t.priority (q.queues t.priority ++ [t])⟩

/-- Scan the given priority levels in order and pop the first non-empty
queue, as the loop body of `TaskQueue.get` does with `get_nowait`. -/
def TaskQueue.getFrom (q : TaskQueue) : List TaskPriority → Option (Task × TaskQueue)
  | [] => none
  | p :: ps =>
    match q.queues p with
    | [] => q.getFrom ps
    | t :: rest => some (t, ⟨Function.update q.queues p rest⟩)

/-- `TaskQueue.get`: return the highest-priority queued task, if any. -/
def TaskQueue.get (q : TaskQueue) : Option (Task × TaskQueue) :=
  q.getFrom priorityScanOrder

/-- A queue state with a single task at NORMAL priority, for witnesses. -/
def sampleTask : Task :=
  ⟨1, TaskPriority.normal, TaskStatus.queued, 0, 3, none⟩

/-- Another concrete task, enqueued after `sampleTask` in witnesses. -/
def sampleTask2 : Task :=
  ⟨2, TaskPriority.normal, TaskStatus.queued, 0, 3, none⟩

/-- The empty queue bank. -/
def emptyQueue : TaskQueue := ⟨fun _ => []⟩

/-! ## JSON values

The source circulates payloads as Python dictionaries produced by
`json.loads`.  `Json` models those values; numbers are restricted to
integers (the claims never involve fractional literals).
-/

/-- JSON values as produced by `json.loads`. -/
inductive Json where
  | null
  | bool (b : Bool)
  | num (n : Int)
  | str (s : String)
  | arr (elems : List Json)
  | obj (fields : List (String × Json))

/-- Lookup in a parsed JSON object.  `json.loads` builds a Python dict, so
for duplicate keys the last occurrence wins. -/
def Json.objGet (fields : List (String × Json)) (key : String) : Option Json :=
  (fields.reverse.find? (fun kv => kv.1 = key)).map Prod.snd

/-- Python truthiness of a JSON value (`bool(x)` on the loaded object):
`None`, `False`, `0`, `""`, `[]` and `{}` are falsy. -/
def Json.truthy : Json → Bool
  | .null => false
  | .bool b => b
  | .num n => n != 0
  | .str s => s != ""
  | .arr xs => !xs.isEmpty
  | .obj fs => !fs.isEmpty

/-! ## Orchestrator task failure (`core/orchestration/orchestrator.py`)

`Orchestrator.fail_task` marks the task failed, then, if the task still has
retry budget, increments `retry_count`, resets the status to PENDING and
puts the task back on the priority queue; otherwise it drops the task from
the pending map and emits the terminal `task.failed` event.  The agent
bookkeeping in the middle of the method does not touch the task and is
omitted.
-/

/-- Remove a key from the pending-task map. -/
def mapRemove (m : List (Nat × Task)) (k : Nat) : List (Nat × Task) :=
  m.filter (fun kv => kv.1 ≠ k)

/-- Store a key in the pending-task map (Python dict assignment). -/
def mapSet (m : List (Nat × Task)) (k : Nat) (v : Task) : List (Nat × Task) :=
  (k, v) :: mapRemove m k

/-- Look a key up in the pending-task map. -/
def mapFind (m : List (Nat × Task)) (k : Nat) : Option Task :=
  (m.find? (fun kv => kv.1 = k)).map Prod.snd

/-- The orchestrator state relevant to task completion and failure:
`_pending_tasks` and the priority queue. -/
structure Orchestrator where
  pending : List (Nat × Task)
  queue : TaskQueue

/-- `Orchestrator.fail_task`.  The source first calls `task.fail(error)`
(status := FAILED), then checks `task.can_retry()`: if so it increments
`retry_count`, sets status PENDING and re-queues the task; otherwise it
pops the task from `_pending_tasks`. -/
def Orchestrator.failTask (o : Orchestrator) (task_id : Nat) (error : String) :
    Orchestrator :=
  match mapFind o.pending task_id with
  | none => o
  | some t =>
    let t1 := t.fail error
    if t1.canRetry then
      let t2 := { t1 with retry_count := t1.retry_count + 1,
                          status := TaskStatus.pending }
      { pending := mapSet o.pending task_id t2, queue := o.queue.put t2 }
    else
      { pending := mapRemove o.pending task_id, queue := o.queue }

/-- `Orchestrator.complete_task`: pop the task from the pending map and mark
it COMPLETED (agent bookkeeping omitted; the event mentions no status). -/
def Orchestrator.completeTask (o : Orchestrator) (task_id : Nat) : Orchestrator :=
  match mapFind o.pending task_id with
  | none => o
  | some _ => { pending := mapRemove o.pending task_id, queue := o.queue }

/-- Concrete running task used by the C2 counterexample. -/
def runningTask : Task :=
  ⟨5, TaskPriority.normal, TaskStatus.running, 0, 3, none⟩

/-- Concrete orchestrator state holding `runningTask`. -/
def sampleOrchestrator : Orchestrator :=
  ⟨[(5, runningTask)], emptyQueue⟩

/-! ## Agent supervisor (`core/orchestration/supervisor.py`)

`_check_health` collects every non-TERMINATED instance whose last heartbeat
is strictly older than the timeout and hands each to
`_handle_unhealthy_agent`, which sets the status to ERROR and — when the
instance has a current task — merely logs a warning ("The orchestrator
should handle task reassignment").  Times are integers (milliseconds).
-/

/-- Agent lifecycle status (`AgentStatus` in `definition.py`). -/
inductive AgentStatus where
  | idle
  | running
  | paused
  | error
  | terminated
deriving DecidableEq, Repr

/-- The fields of `AgentInstance` that the supervisor reads or writes. -/
structure AgentInstance where
  status : AgentStatus
  current_task_id : Option Nat
  last_heartbeat : Option Int
deriving DecidableEq, Repr

/-- The supervisor state: the heartbeat timeout and the registered
instances (`_agents`), iterated by id. -/
structure Supervisor where
  heartbeat_timeout : Int
  agentIds : List Nat
  agents : Nat → Option AgentInstance

/-- The health predicate of `_check_health`: the instance is flagged
unhealthy iff it is not TERMINATED, has a recorded heartbeat, and
`now - last_heartbeat > heartbeat_timeout` (strictly). -/
def Supervisor.isUnhealthy (s : Supervisor) (now : Int) (id : Nat) : Bool :=
  match s.agents id with
  | none => false
  | some inst =>
    inst.status ≠ AgentStatus.terminated &&
      match inst.last_heartbeat with
      | some hb => now - hb > s.heartbeat_timeout
      | none => false

/-- `_handle_unhealthy_agent`: set the instance's status to ERROR.  The
returned list is the sequence of task ids the handler releases back to the
queue — the source releases none (it only logs when `current_task_id` is
set). -/
def Supervisor.handleUnhealthyAgent (agents : Nat → Option AgentInstance)
    (id : Nat) : (Nat → Option AgentInstance) × List Nat :=
  match agents id with
  | none => (agents, [])
  | some inst =>
    (Function.update agents id (some { inst with status := AgentStatus.error }), [])

/-- The `for instance_id in unhealthy` loop of `_check_health`: handle
each unhealthy instance in turn, concatenating the released task ids. -/
def sweepAgents : (Nat → Option AgentInstance) → List Nat →
    (Nat → Option AgentInstance) × List Nat
  | m, [] => (m, [])
  | m, id :: rest =>
    let step := Supervisor.handleUnhealthyAgent m id
    let next := sweepAgents step.1 rest
    (next.1, step.2 ++ next.2)

/-- `_check_health`: sweep the registered instances, then handle each
unhealthy one in turn.  Returns the updated instances together with every
task id released back to the queue during the sweep. -/
def Supervisor.checkHealth (s : Supervisor) (now : Int) :
    (Nat → Option AgentInstance) × List Nat :=
  sweepAgents s.agents (s.agentIds.filter (s.isUnhealthy now))

/-- Concrete stale instance carrying a task, for the C5 counterexample. -/
def staleInstance : AgentInstance :=
  ⟨AgentStatus.running, some 7, some 0⟩

/-- Concrete supervisor whose single instance has not heartbeaten for
longer than the 30 s timeout. -/
def sampleSupervisor : Supervisor :=
  ⟨30000, [1], fun id => if id = 1 then some staleInstance else none⟩

/-! ## Domain events (`core/events/models.py`, `core/events/store.py`)

`DomainEvent.version` defaults to `1` and none of the event factories
passes a version; `PostgresEventStore.append` (and the in-memory store)
persist `event.version` verbatim.  UUIDs become naturals: `uuid4()` is
modelled by an `event_id` argument supplied by the caller's environment.
-/

/-- The `DomainEvent` envelope restricted to the fields the claim is about
(correlation, causation, timestamps and metadata are omitted). -/
structure DomainEvent where
  event_id : Nat
  event_type : String
  aggregate_id : Nat
  aggregate_type : String
  version : Nat
  payload : Json

/-- `TaskEvent.created`: version is left at the `DomainEvent` default 1. -/
def TaskEvent.created (event_id task_id : Nat) (name description : String)
    (input_data : Json) : DomainEvent :=
  ⟨event_id, "task.created", task_id, "Task", 1,
    Json.obj [("name", Json.str name), ("description", Json.str description),
      ("input_data", input_data)]⟩

/-- `TaskEvent.assigned`: version left at the default 1. -/
def TaskEvent.assigned (event_id task_id agent_id : Nat) : DomainEvent :=
  ⟨event_id, "task.assigned", task_id, "Task", 1,
    Json.obj [("agent_id", Json.num agent_id)]⟩

/-- `TaskEvent.completed`: version left at the default 1. -/
def TaskEvent.completed (event_id task_id : Nat) (result : Json) : DomainEvent :=
  ⟨event_id, "task.completed", task_id, "Task", 1,
    Json.obj [("result", result)]⟩

/-- `TaskEvent.failed`: version left at the default 1. -/
def TaskEvent.failed (event_id task_id : Nat) (error : String) : DomainEvent :=
  ⟨event_id, "task.failed", task_id, "Task", 1,
    Json.obj [("error", Json.str error)]⟩

/-- `AgentEvent.llm_call`: version left at the default 1. -/
def AgentEvent.llmCall (event_id agent_id task_id : Nat)
    (prompt_tokens completion_tokens : Nat) : DomainEvent :=
  ⟨event_id, "agent.llm_call", agent_id, "Agent", 1,
    Json.obj [("task_id", Json.num task_id),
      ("prompt_tokens", Json.num prompt_tokens),
      ("completion_tokens", Json.num completion_tokens)]⟩

/-- `AgentEvent.tool_call`: version left at the default 1. -/
def AgentEvent.toolCall (event_id agent_id task_id : Nat) (tool_name : String)
    (success : Bool) : DomainEvent :=
  ⟨event_id, "agent.tool_call", agent_id, "Agent", 1,
    Json.obj [("task_id", Json.num task_id), ("tool_name", Json.str tool_name),
      ("success", Json.bool success)]⟩

/-- `WorkflowEvent.started`: version left at the default 1. -/
def WorkflowEvent.started (event_id workflow_id execution_id : Nat)
    (input_data : Json) : DomainEvent :=
  ⟨event_id, "workflow.started", execution_id, "Workflow", 1,
    Json.obj [("workflow_id", Json.num workflow_id), ("input_data", input_data)]⟩

/-- `WorkflowEvent.step_completed`: version left at the default 1. -/
def WorkflowEvent.stepCompleted (event_id execution_id : Nat) (step_id : String)
    (result : Json) : DomainEvent :=
  ⟨event_id, "workflow.step.completed", execution_id, "Workflow", 1,
    Json.obj [("step_id", Json.str step_id), ("result", result)]⟩

/-- The in-memory event store (`InMemoryEventStore._events`); the Postgres
store likewise persists records in arrival order with the version field
copied from the event. -/
def EventStore := List DomainEvent

/-- `EventStore.append`: append one event, version stored verbatim. -/
def EventStore.append (store : EventStore) (e : DomainEvent) : EventStore :=
  List.append store [e]

/-- `EventStore.append_batch`: append the events in order. -/
def EventStore.appendBatch (store : EventStore) (es : List DomainEvent) :
    EventStore :=
  List.append store es

/-! ## Tool executor (`core/agents/tools.py`, class `ToolExecutor`)

`ToolExecutor.execute` looks the tool up, then runs a retry loop
`while retries <= (tool.config.retry_count or self._max_retries)`.  Each
attempt either returns a success result, or raises: `asyncio.TimeoutError`
and every other `Exception` are caught by the same pair of handlers, which
only set `last_error` — the code cannot tell an invocation-validation
error (such as a `TypeError` from mismatched keyword arguments) from a
transient fault.  After an attempt fails, `retries` is incremented and the
executor sleeps `retry_delay_seconds` whenever another attempt remains.
-/

/-- One attempt of `tool.execute(**arguments)` under `asyncio.wait_for`:
it returns a value, times out, or raises.  The `validation` flag marks
invocation-validation raises (bad arguments); the source's
`except Exception` clause never inspects it. -/
inductive AttemptOutcome where
  | ok (result : Json)
  | timeout
  | raised (message : String) (validation : Bool)

/-- Did the attempt succeed?  The executor's control flow depends on the
outcome only through this. -/
def AttemptOutcome.isOk : AttemptOutcome → Bool
  | AttemptOutcome.ok _ => true
  | _ => false

/-- The tool configuration fields the executor reads. -/
structure ToolCfg where
  timeout_seconds : Nat
  retry_count : Nat
  retry_delay_seconds : Nat

/-- What `ToolExecutor.execute` returns, extended with the number of
attempts made and sleeps taken so the retry discipline is observable. -/
structure ExecOutcome where
  success : Bool
  result : Option Json
  error : Option String
  attempts : Nat
  sleeps : Nat

/-- The retry loop of `ToolExecutor.execute`.  `remaining` counts the
attempts still permitted (`budget + 1 - retries`); `idx` is the current
value of `retries`, `slept` the sleeps taken, `lastErr` the `last_error`
variable.  After a failed attempt the executor sleeps exactly when another
attempt remains. -/
def runToolAttempts (env : Nat → AttemptOutcome) (timeoutMsg : String) :
    Nat → Nat → Nat → Option String → ExecOutcome
  | 0, idx, slept, lastErr => ⟨false, none, lastErr, idx, slept⟩
  | Nat.succ rem, idx, slept, _lastErr =>
    match env idx with
    | AttemptOutcome.ok r => ⟨true, some r, none, idx + 1, slept⟩
    | AttemptOutcome.timeout =>
      runToolAttempts env timeoutMsg rem (idx + 1)
        (if 0 < rem then slept + 1 else slept) (some timeoutMsg)
    | AttemptOutcome.raised m _ =>
      runToolAttempts env timeoutMsg rem (idx + 1)
        (if 0 < rem then slept + 1 else slept) (some m)

/-- `ToolExecutor.execute`: missing tools yield an immediate failure; a
registered tool runs the retry loop with budget
`tool.config.retry_count or self._max_retries` (Python `or`: the executor
default applies only when `retry_count` is zero). -/
def ToolExecutor.execute (tool : Option ToolCfg) (executorMaxRetries : Nat)
    (toolName : String) (env : Nat → AttemptOutcome) : ExecOutcome :=
  match tool with
  | none =>
    ⟨false, none, some ("Tool '" ++ toolName ++ "' not found"), 0, 0⟩
  | some cfg =>
    let budget := if cfg.retry_count ≠ 0 then cfg.retry_count else executorMaxRetries
    let msg := "Tool execution timed out after " ++ toString cfg.timeout_seconds ++ "s"
    runToolAttempts env msg (budget + 1) 0 0 none

/-- A concrete attempt environment that raises an invocation-validation
error on every attempt, for the C7 counterexample. -/
def validationEnv : Nat → AttemptOutcome :=
  fun _ => AttemptOutcome.raised "unexpected keyword argument" true

/-! ## Text tool-call parser (`core/agents/runtime.py`, `_parse_text_tool_call`)

The source tries three regular expressions in order —

* pattern 1: a brace-free JSON-looking object containing `"name"`,
* pattern 2: a JSON object inside triple-backtick `json` code fences,
* pattern 3: a JSON object inside generic code fences —

then falls back to `json.loads` on the whole (stripped) content when it
starts with an opening and ends with a closing brace.  All four avenues
accept a call only when the parsed `name` is in `available_tools`.

The matchers below reproduce `re.search` semantics for these specific
patterns: leftmost starting position wins; at a given start the greedy
`[^{}]*` before `"name"` backtracks from the rightmost occurrence; the
remaining greedy pieces (`\s*`, `[^"]+`, `[^{}]*`) are deterministic
because each is followed by a character its class excludes; the lazy
`.*?` of the fence patterns stops at the first closing brace whose
suffix completes the match.  Characters are handled as `List Char`.
-/

/-- Python `str.strip` whitespace (the six ASCII whitespace characters). -/
def isPySpace (c : Char) : Bool :=
  c = ' ' || c = '\t' || c = '\n' || c = '\r' || c = '\x0b' || c = '\x0c'

/-- Python `str.strip`. -/
def pyStrip (s : List Char) : List Char :=
  ((s.dropWhile isPySpace).reverse.dropWhile isPySpace).reverse

/-- The character class `[{}]` of the regex. -/
def isBrace (c : Char) : Bool := c = '{' || c = '}'

/-- The literal `"name"` (with its quotes) of pattern 1. -/
def nameLit : List Char := ['"', 'n', 'a', 'm', 'e', '"']

/-- The literal triple backtick of the fence patterns. -/
def fence3 : List Char := ['`', '`', '`']

/-- The literal ```` ```json ```` opening of pattern 2. -/
def fenceJson : List Char := ['`', '`', '`', 'j', 's', 'o', 'n']

/-- Consume one expected character. -/
def expectChar (c : Char) : List Char → Option (List Char)
  | [] => none
  | x :: rest => if x = c then some rest else none

/-- Does the list start with the given character? (`str.startswith`). -/
def headIs (l : List Char) (c : Char) : Bool :=
  match l with
  | [] => false
  | x :: _ => x = c

/-- Does the list end with the given character? (`str.endswith`). -/
def lastIs (l : List Char) (c : Char) : Bool := headIs l.reverse c

/-- The tail `\s*:\s*"([^"]+)"[^{}]*\}` of pattern 1, applied right after
a `"name"` occurrence.  Returns the captured group and the remainder after
the closing brace.  Each greedy piece is deterministic (see above). -/
def p1Tail (s : List Char) : Option (List Char × List Char) := do
  let s1 ← expectChar ':' (s.dropWhile isPySpace)
  let s2 ← expectChar '"' (s1.dropWhile isPySpace)
  let g1 := s2.takeWhile (fun c => c != '"')
  if g1.isEmpty then none
  else do
    let s3 ← expectChar '"' (s2.dropWhile (fun c => c != '"'))
    let s4 ← expectChar '}' (s3.dropWhile (fun c => !isBrace c))
    pure (g1, s4)

/-- Backtracking of the greedy `[^{}]*` before `"name"`: try the
occurrence offsets from the rightmost (`k`) down to 0. -/
def p1Go (rest : List Char) : Nat → Option (List Char × List Char)
  | 0 => none
  | Nat.succ k =>
    if nameLit.isPrefixOf (rest.drop k) then
      match p1Tail (rest.drop (k + 6)) with
      | some gr => some gr
      | none => p1Go rest k
    else p1Go rest k

/-- Attempt pattern 1 anchored at the current position: the position must
hold `{`, the `"name"` literal must begin inside the maximal brace-free
run after it, and the tail must complete. -/
def p1AtStart : List Char → Option (List Char × List Char)
  | '{' :: rest =>
    let runLen := (rest.takeWhile (fun c => !isBrace c)).length
    p1Go rest (runLen + 1)
  | _ => none

/-- `re.search` for pattern 1: scan start positions left to right; on
success return `(group 0, group 1)`. -/
def p1Search : List Char → Option (List Char × List Char)
  | [] => none
  | s@(_ :: rest) =>
    match p1AtStart s with
    | some (g1, rem) => some (s.take (s.length - rem.length), g1)
    | none => p1Search rest

/-- Lazy `.*?\}` of the fence patterns: find the first closing brace whose
remainder is whitespace and then a closing fence; `acc` holds the group
seen so far, reversed. -/
def fenceClose (acc : List Char) : List Char → Option (List Char)
  | [] => none
  | c :: rest =>
    if c = '}' && fence3.isPrefixOf (rest.dropWhile isPySpace) then
      some (List.reverse ('}' :: acc))
    else fenceClose (c :: acc) rest

/-- After an opening fence: `\s*(\{.*?\})\s*` followed by ```` ``` ````;
returns group 1. -/
def fenceGroup (s : List Char) : Option (List Char) :=
  match s.dropWhile isPySpace with
  | '{' :: rest => fenceClose ['{'] rest
  | _ => none

/-- Attempt pattern 2 anchored at the current position. -/
def p2AtStart (s : List Char) : Option (List Char) :=
  if fenceJson.isPrefixOf s then fenceGroup (s.drop 7) else none

/-- Attempt pattern 3 anchored at the current position. -/
def p3AtStart (s : List Char) : Option (List Char) :=
  if fence3.isPrefixOf s then fenceGroup (s.drop 3) else none

/-- `re.search` for pattern 2. -/
def p2Search : List Char → Option (List Char)
  | [] => none
  | s@(_ :: rest) =>
    match p2AtStart s with
    | some g => some g
    | none => p2Search rest

/-- `re.search` for pattern 3. -/
def p3Search : List Char → Option (List Char)
  | [] => none
  | s@(_ :: rest) =>
    match p3AtStart s with
    | some g => some g
    | none => p3Search rest

/-! ### `json.loads`

A recursive-descent parser over characters, with fuel for termination.
Numbers are restricted to decimal integers (the claims never involve
fractional or exponent literals) and string escapes to the single-letter
ones; in both respects the embedding accepts a subset of what Python's
`json` accepts, which is enough for every content the theorems touch.
-/

/-- JSON structural whitespace. -/
def isJsonWs (c : Char) : Bool := c = ' ' || c = '\t' || c = '\n' || c = '\r'

/-- Skip JSON structural whitespace. -/
def skipWs (s : List Char) : List Char := s.dropWhile isJsonWs

/-- Single-letter string escapes. -/
def escChar (c : Char) : Option Char :=
  if c = '"' then some '"'
  else if c = '\\' then some '\\'
  else if c = '/' then some '/'
  else if c = 'n' then some '\n'
  else if c = 't' then some '\t'
  else if c = 'r' then some '\r'
  else if c = 'b' then some '\x08'
  else if c = 'f' then some '\x0c'
  else none

/-- Parse the body of a string literal, after the opening quote. -/
def parseStringChars (acc : List Char) : List Char → Option (String × List Char)
  | [] => none
  | c :: rest =>
    if c = '"' then some (String.mk acc.reverse, rest)
    else if c = '\\' then
      match rest with
      | [] => none
      | e :: rest2 =>
        match escChar e with
        | some d => parseStringChars (d :: acc) rest2
        | none => none
    else parseStringChars (c :: acc) rest

/-- Decimal digit test (identical to Python's for ASCII digits). -/
def isDigitC (c : Char) : Bool := 48 ≤ c.toNat && c.toNat ≤ 57

/-- Numeric value of a decimal digit character. -/
def digitVal (c : Char) : Nat := c.toNat - 48

/-- Value of a non-empty list of decimal digits. -/
def digitsToNat (ds : List Char) : Nat := ds.foldl (fun n c => n * 10 + digitVal c) 0

/-- Parse a non-empty run of decimal digits. -/
def parseNatNum (s : List Char) : Option (Nat × List Char) :=
  let ds := s.takeWhile isDigitC
  if ds.isEmpty then none
  else some (digitsToNat ds, s.dropWhile isDigitC)

/-- Parse an optionally negated integer literal. -/
def parseNumber : List Char → Option (Json × List Char)
  | [] => none
  | c :: rest =>
    if c = '-' then (parseNatNum rest).map (fun p => (Json.num (-(p.1 : Int)), p.2))
    else (parseNatNum (c :: rest)).map (fun p => (Json.num (p.1 : Int), p.2))

mutual

/-- Parse one JSON value. -/
def parseVal : Nat → List Char → Option (Json × List Char)
  | 0, _ => none
  | Nat.succ fuel, s =>
    match skipWs s with
    | [] => none
    | c :: rest =>
      if c = '{' then
        match skipWs rest with
        | '}' :: rest2 => some (Json.obj [], rest2)
        | rest2 => (parseMembers fuel rest2).map (fun p => (Json.obj p.1, p.2))
      else if c = '[' then
        match skipWs rest with
        | ']' :: rest2 => some (Json.arr [], rest2)
        | rest2 => (parseElems fuel rest2).map (fun p => (Json.arr p.1, p.2))
      else if c = '"' then
        (parseStringChars [] rest).map (fun p => (Json.str p.1, p.2))
      else if c = 't' then
        if ['r', 'u', 'e'].isPrefixOf rest then some (Json.bool true, rest.drop 3)
        else none
      else if c = 'f' then
        if ['a', 'l', 's', 'e'].isPrefixOf rest then some (Json.bool false, rest.drop 4)
        else none
      else if c = 'n' then
        if ['u', 'l', 'l'].isPrefixOf rest then some (Json.null, rest.drop 3)
        else none
      else if c = '-' || isDigitC c then parseNumber (c :: rest)
      else none

/-- Parse the members of a non-empty object, up to and including the
closing brace. -/
def parseMembers : Nat → List Char → Option (List (String × Json) × List Char)
  | 0, _ => none
  | Nat.succ fuel, s =>
    match skipWs s with
    | '"' :: rest =>
      match parseStringChars [] rest with
      | none => none
      | some (key, r1) =>
        match skipWs r1 with
        | ':' :: r2 =>
          match parseVal fuel r2 with
          | none => none
          | some (v, r3) =>
            match skipWs r3 with
            | ',' :: r4 => (parseMembers fuel r4).map (fun p => ((key, v) :: p.1, p.2))
            | '}' :: r4 => some ([(key, v)], r4)
            | _ => none
        | _ => none
    | _ => none

/-- Parse the elements of a non-empty array, up to and including the
closing bracket. -/
def parseElems : Nat → List Char → Option (List Json × List Char)
  | 0, _ => none
  | Nat.succ fuel, s =>
    match parseVal fuel s with
    | none => none
    | some (v, r1) =>
      match skipWs r1 with
      | ',' :: r2 => (parseElems fuel r2).map (fun p => (v :: p.1, p.2))
      | ']' :: r2 => some ([v], r2)
      | _ => none

end

/-- `json.loads`: parse a complete document, allowing surrounding
whitespace only. -/
def jsonLoads (s : List Char) : Option Json :=
  match parseVal (2 * s.length + 2) s with
  | some (v, rest) => if (skipWs rest).isEmpty then some v else none
  | none => none

/-- The `arguments = data.get("parameters") or data.get("arguments") or
\x7b\x7d` chain, with Python truthiness: a missing key and a falsy value
both fall through. -/
def extractArguments (fields : List (String × Json)) : Json :=
  let viaArgs :=
    match Json.objGet fields "arguments" with
    | some a => if a.truthy then a else Json.obj []
    | none => Json.obj []
  match Json.objGet fields "parameters" with
  | some p => if p.truthy then p else viaArgs
  | none => viaArgs

/-- The acceptance check shared by all four avenues: the loaded value must
be a dict containing `"name"`, and `data.get("name")` must be one of the
allowed tool names (a non-string name is never equal to a `str` in the
list). -/
def toolCallFromJson (data : Json) (available : List String) :
    Option (String × Json) :=
  match data with
  | Json.obj fields =>
    match Json.objGet fields "name" with
    | some (Json.str toolName) =>
      if toolName ∈ available then some (toolName, extractArguments fields)
      else none
    | some _ => none
    | none => none
  | _ => none

/-- The shared body of the pattern loop: strip the candidate fragment,
require it to start with a brace, `json.loads` it, and accept it as a
tool call; any failure falls through to the next pattern. -/
def tryJsonFragment (available : List String) (jsonStr : List Char) :
    Option (String × Json) :=
  let js := pyStrip jsonStr
  if headIs js '{' then
    match jsonLoads js with
    | some data => toolCallFromJson data available
    | none => none
  else none

/-- `_parse_text_tool_call` over characters: the empty-content guard, the
strip, the three patterns in order (a match whose JSON fails to load, does
not start with a brace once stripped, or carries a disallowed name falls
through to the next pattern), then the whole-content fallback. -/
def parseTextToolCallL (content0 : List Char) (available : List String) :
    Option (String × Json) :=
  if content0.isEmpty then none
  else
    let content := pyStrip content0
    match (match p1Search content with
           | some (g0, g1) =>
             tryJsonFragment available (if g1.contains '{' then g1 else g0)
           | none => none) with
    | some r => some r
    | none =>
      match (match p2Search content with
             | some g1 => tryJsonFragment available g1
             | none => none) with
      | some r => some r
      | none =>
        match (match p3Search content with
               | some g1 => tryJsonFragment available g1
               | none => none) with
        | some r => some r
        | none =>
          if headIs content '{' && lastIs content '}' then
            match jsonLoads content with
            | some data => toolCallFromJson data available
            | none => none
          else none

/-- `_parse_text_tool_call` on a `String`. -/
def parseTextToolCall (content : String) (available : List String) :
    Option (String × Json) :=
  parseTextToolCallL content.data available

/-! ## Agent runtime (`core/agents/runtime.py`, `AgentRuntime.execute_task`)

The observe-think-act loop, embedded as state passing.  The LLM provider
is abstracted as a map from the call index to the response (memory writes
feed only the provider, so they are absorbed into that abstraction); tool
executions influence nothing but memory, so the embedding records them in
an invocation log instead.  The `remaining` parameter implements the
`while iterations < max_iterations` guard as
`remaining = max_iterations - iterations`.  A raised `RuntimeError` is
caught by the method's `except` clause, which returns a failed result
carrying the current counters — the embedding returns that result
directly.  Elapsed wall-clock time is modelled by accumulating the
per-call latencies; the loop reports it but never branches on it.
-/

/-- The `AgentConstraints` model of `definition.py`. -/
structure AgentConstraints where
  max_iterations : Nat
  max_execution_time_seconds : Nat
  max_tokens_per_task : Nat
  max_tool_calls_per_iteration : Nat
  allowed_tools : Option (List String)
  denied_tools : List String

/-- A structured tool call carried by an LLM response (the source stores
the arguments JSON-encoded and decodes them at use; the embedding keeps
them decoded). -/
structure StructuredToolCall where
  id : String
  name : String
  arguments : Json

/-- The provider response fields the loop reads. -/
structure LLMResponse where
  content : Option String
  prompt_tokens : Nat
  completion_tokens : Nat
  latency_ms : Nat
  tool_calls : List StructuredToolCall

/-- `response.has_tool_calls`. -/
def LLMResponse.hasToolCalls (r : LLMResponse) : Bool := !r.tool_calls.isEmpty

/-- `AgentExecutionResult` of `runtime.py`.  `result` is `none` exactly
when the Python field holds `None`. -/
structure AgentExecutionResult where
  success : Bool
  result : Option Json
  error : Option String
  iterations : Nat
  total_tokens : Nat
  execution_time_ms : Nat

/-- `arguments.get("answer")` on a tool call's arguments: a missing key
and a JSON `null` value both come back as Python `None`. -/
def argsGetPy (args : Json) (key : String) : Option Json :=
  match args with
  | Json.obj fields =>
    match Json.objGet fields key with
    | some Json.null => none
    | r => r
  | _ => none

/-- `_handle_tool_calls`: process the structured calls in order.  A
`final_answer` call returns its answer immediately (skipping the rest);
every other call is executed through the tool executor — recorded in the
invocation log — and the loop goes on.  The runtime treats a `none`
answer as "not completed", exactly as the source's `is not None` check
does. -/
def handleToolCalls : List (String × Json) → List StructuredToolCall →
    Option Json × List (String × Json)
  | log, [] => (none, log)
  | log, tc :: rest =>
    if tc.name = "final_answer" then (argsGetPy tc.arguments "answer", log)
    else handleToolCalls (log ++ [(tc.name, tc.arguments)]) rest

/-- The main loop of `execute_task`.  Arguments after the environment:
remaining iterations, `iterations`, `total_tokens`, elapsed milliseconds,
and the tool-invocation log. -/
def execLoop (cfg : AgentConstraints) (llm : Nat → LLMResponse) :
    Nat → Nat → Nat → Nat → List (String × Json) →
    AgentExecutionResult × List (String × Json)
  | 0, iters, toks, el, log =>
    (⟨false, none, some ("Max iterations reached: " ++ toString iters),
      iters, toks, el⟩, log)
  | Nat.succ rem, iters0, toks0, el0, log =>
    let response := llm iters0
    let toks := toks0 + response.prompt_tokens + response.completion_tokens
    let el := el0 + response.latency_ms
    let iters := iters0 + 1
    if cfg.max_tokens_per_task ≤ toks then
      (⟨false, none,
        some ("Token limit exceeded: " ++ toString toks ++ " >= " ++
          toString cfg.max_tokens_per_task), iters, toks, el⟩, log)
    else if response.hasToolCalls then
      match handleToolCalls log response.tool_calls with
      | (some answer, log1) => (⟨true, some answer, none, iters, toks, el⟩, log1)
      | (none, log1) => execLoop cfg llm rem iters toks el log1
    else
      match parseTextToolCall (response.content.getD "")
          (cfg.allowed_tools.getD []) with
      | some (toolName, args) =>
        if toolName = "final_answer" then
          (⟨true, argsGetPy args "answer", none, iters, toks, el⟩, log)
        else
          execLoop cfg llm rem iters toks el (log ++ [(toolName, args)])
      | none =>
        (⟨true, response.content.map Json.str, none, iters, toks, el⟩, log)

/-- `execute_task`: run the loop from fresh counters; also expose the
tool-invocation log. -/
def executeTask (cfg : AgentConstraints) (llm : Nat → LLMResponse) :
    AgentExecutionResult × List (String × Json) :=
  execLoop cfg llm cfg.max_iterations 0 0 0 []

/-! ## Workflow engine (`core/workflows/engine.py`)

The engine executes the definition's steps in listed order.  The task
executor is abstracted as a map from the step id to the awaited outcome
(success value, raised exception, or `asyncio.TimeoutError`); the
sandboxed condition evaluator is abstracted as a predicate on the
condition string.  `_execute_parallel` awaits its children in listed
order; the per-child state updates (`complete_step` on success inside the
gather loop, `execution.fail` inside the failing child's own
`_execute_step`) commute, so the sequential embedding reaches the same
final state as any interleaving.  Compensation submissions
(`task_executor.execute(comp_task)` in `_execute_compensation`) are
recorded in `compLog`; a compensation failure is swallowed by the source,
so the log records invocations regardless of their outcome.
-/

/-- `WorkflowStepType` of `models.py`. -/
inductive WorkflowStepType where
  | agent_task
  | parallel
  | conditional
  | loop
  | wait
  | human_approval
  | subprocess
deriving DecidableEq, Repr

/-- String value of a step type (the Python enum value). -/
def WorkflowStepType.value : WorkflowStepType → String
  | .agent_task => "agent_task"
  | .parallel => "parallel"
  | .conditional => "conditional"
  | .loop => "loop"
  | .wait => "wait"
  | .human_approval => "human_approval"
  | .subprocess => "subprocess"

/-- `WorkflowStatus` of `models.py`. -/
inductive WorkflowStatus where
  | pending
  | running
  | paused
  | completed
  | failed
  | compensating
  | compensated
  | cancelled
deriving DecidableEq, Repr

/-- `WorkflowStep` of `models.py`, restricted to the fields the engine
reads (`agent_id` and `retry_policy` are never consulted by the engine). -/
inductive WorkflowStep where
  | mk (step_id : String) (name : String) (step_type : WorkflowStepType)
      (task_template : Option Json) (condition : Option String)
      (children : List WorkflowStep) (wait_seconds : Option Nat)
      (compensation : Option Json) (timeout_seconds : Nat)
      (depends_on : List String)

/-- Step id projection. -/
def WorkflowStep.step_id : WorkflowStep → String
  | .mk i _ _ _ _ _ _ _ _ _ => i

/-- Children projection. -/
def WorkflowStep.children : WorkflowStep → List WorkflowStep
  | .mk _ _ _ _ _ cs _ _ _ _ => cs

/-- Compensation projection. -/
def WorkflowStep.compensation : WorkflowStep → Option Json
  | .mk _ _ _ _ _ _ _ comp _ _ => comp

/-- Depends-on projection. -/
def WorkflowStep.depends_on : WorkflowStep → List String
  | .mk _ _ _ _ _ _ _ _ _ deps => deps

/-- `WorkflowDefinition`, restricted to the fields the engine reads. -/
structure WorkflowDefinition where
  workflow_id : Nat
  steps : List WorkflowStep

/-- `WorkflowExecution` of `models.py`, with `compLog` added as the
observable record of compensation submissions (it is not a source field;
it logs the engine's calls to the external task executor during
`_compensate`). -/
structure WorkflowExecution where
  status : WorkflowStatus
  current_step_id : Option String
  completed_steps : List String
  step_results : List (String × Json)
  failed_step_id : Option String
  error : Option String
  output_data : Option Json
  compLog : List String

/-- `WorkflowExecution.start`. -/
def WorkflowExecution.start (ex : WorkflowExecution) : WorkflowExecution :=
  { ex with status := WorkflowStatus.running }

/-- `WorkflowExecution.complete_step`: append to `completed_steps` and
record the result (step ids are unique per run, so dict assignment is an
append). -/
def WorkflowExecution.completeStep (ex : WorkflowExecution) (id : String)
    (r : Json) : WorkflowExecution :=
  { ex with completed_steps := ex.completed_steps ++ [id],
            step_results := ex.step_results ++ [(id, r)] }

/-- `WorkflowExecution.fail`. -/
def WorkflowExecution.fail (ex : WorkflowExecution) (id : String)
    (err : String) : WorkflowExecution :=
  { ex with status := WorkflowStatus.failed, failed_step_id := some id,
            error := some err }

/-- `WorkflowExecution.complete`. -/
def WorkflowExecution.complete (ex : WorkflowExecution) (output : Json) :
    WorkflowExecution :=
  { ex with status := WorkflowStatus.completed, output_data := some output }

/-- The awaited outcome of `task_executor.execute` for one step, under
`asyncio.wait_for`. -/
inductive StepOutcome where
  | ok (result : Json)
  | raised (message : String)
  | timedOut

/-- `WorkflowDefinition.get_step`: scan the top-level steps, checking each
step and then its direct children (the source does not recurse deeper). -/
def getStepIn : List WorkflowStep → String → Option WorkflowStep
  | [], _ => none
  | s :: rest, id =>
    if s.step_id = id then some s
    else
      match s.children.find? (fun c => c.step_id = id) with
      | some c => some c
      | none => getStepIn rest id

mutual

/-- `_execute_step`: dispatch on the step type.  The method's own
`try`/`except` turns a raised error or timeout into `execution.fail` plus
a `None` result, which the embedding produces directly. -/
def executeStep (env : String → StepOutcome) (cond : String → Bool) :
    WorkflowStep → WorkflowExecution → Option Json × WorkflowExecution
  | WorkflowStep.mk id _ ty template condStr children waitSec _ timeoutS _, ex =>
    match ty with
    | WorkflowStepType.agent_task =>
      match template with
      | none => (none, ex.fail id ("Step " ++ id ++ " has no task template"))
      | some _ =>
        match env id with
        | StepOutcome.ok r => (some r, ex)
        | StepOutcome.raised m => (none, ex.fail id m)
        | StepOutcome.timedOut =>
          (none, ex.fail id ("Step timed out after " ++ toString timeoutS ++ "s"))
    | WorkflowStepType.parallel =>
      let pr := runChildren env cond children ex
      (some (Json.obj pr.1), pr.2)
    | WorkflowStepType.conditional =>
      match condStr with
      | none => (none, ex.fail id ("Step " ++ id ++ " has no condition"))
      | some c =>
        match cond c, children with
        | true, c0 :: _ => executeStep env cond c0 ex
        | false, _ :: c1 :: _ => executeStep env cond c1 ex
        | r, _ => (some (Json.obj [("condition_result", Json.bool r)]), ex)
    | WorkflowStepType.wait =>
      (some (Json.obj [("waited",
        match waitSec with
        | some n => Json.num n
        | none => Json.null)]), ex)
    | WorkflowStepType.human_approval =>
      (some (Json.obj [("approved", Json.bool true),
        ("approver", Json.str "auto")]), ex)
    | _ =>
      (none, ex.fail id ("Unknown step type: " ++ ty.value))

/-- `_execute_parallel`: run the children (awaited in listed order),
record each result keyed by step id (`None` becomes JSON null in the
aggregate), and `complete_step` every child that returned a result.  The
aggregate dict is always returned — child failures do not propagate. -/
def runChildren (env : String → StepOutcome) (cond : String → Bool) :
    List WorkflowStep → WorkflowExecution →
    List (String × Json) × WorkflowExecution
  | [], ex => ([], ex)
  | c :: cs, ex =>
    let pr := executeStep env cond c ex
    let ex2 :=
      match pr.1 with
      | some v => pr.2.completeStep c.step_id v
      | none => pr.2
    let rest := runChildren env cond cs ex2
    ((c.step_id, pr.1.getD Json.null) :: rest.1, rest.2)

end

/-- `_compensate`: enter COMPENSATING, walk `completed_steps` in reverse
insertion order, submit the compensation of every completed step that has
one (failures are logged and swallowed), then enter COMPENSATED. -/
def compensate (defn : WorkflowDefinition) (ex : WorkflowExecution) :
    WorkflowExecution :=
  let ex1 := { ex with status := WorkflowStatus.compensating }
  let invoked := ex1.completed_steps.reverse.filter (fun id =>
    match getStepIn defn.steps id with
    | some st => st.compensation.isSome
    | none => false)
  { ex1 with status := WorkflowStatus.compensated,
             compLog := ex1.compLog ++ invoked }

/-- `_build_output`. -/
def buildOutput (ex : WorkflowExecution) : Json :=
  Json.obj [("step_results", Json.obj ex.step_results),
    ("completed_steps", Json.arr (ex.completed_steps.map Json.str))]

/-- The `for step in definition.steps` loop of `execute`.  The boolean
records whether the body returned early (the failed-step path); `break`
falls through to the completion epilogue, an early `return` does not. -/
def runSteps (env : String → StepOutcome) (cond : String → Bool)
    (defn : WorkflowDefinition) :
    List WorkflowStep → WorkflowExecution → WorkflowExecution × Bool
  | [], ex => (ex, false)
  | s :: rest, ex =>
    if ex.status ≠ WorkflowStatus.running then (ex, false)
    else if !(s.depends_on.all (fun d => ex.completed_steps.contains d)) then
      runSteps env cond defn rest ex
    else
      let ex0 := { ex with current_step_id := some s.step_id }
      let pr := executeStep env cond s ex0
      match pr.1 with
      | none =>
        if pr.2.status = WorkflowStatus.failed then (compensate defn pr.2, true)
        else (pr.2, true)
      | some v => runSteps env cond defn rest (pr.2.completeStep s.step_id v)

/-- `WorkflowEngine.execute`: start the execution, run the steps, and —
unless a failed step returned early — stamp the execution COMPLETED with
the built output (this epilogue also runs after a `break`). -/
def engineExecute (env : String → StepOutcome) (cond : String → Bool)
    (defn : WorkflowDefinition) (ex : WorkflowExecution) : WorkflowExecution :=
  let pr := runSteps env cond defn defn.steps ex.start
  if pr.2 then pr.1
  else pr.1.complete (buildOutput pr.1)

/-- A fresh execution record. -/
def freshExecution : WorkflowExecution :=
  ⟨WorkflowStatus.pending, none, [], [], none, none, none, []⟩

/-- Child A of the C1 scenario: an agent task with a compensation. -/
def stepA : WorkflowStep :=
  WorkflowStep.mk "A" "A" WorkflowStepType.agent_task (some (Json.obj []))
    none [] none (some (Json.obj [("task", Json.str "undo_A")])) 300 []

/-- Child B of the C1 scenario: an agent task without compensation. -/
def stepB : WorkflowStep :=
  WorkflowStep.mk "B" "B" WorkflowStepType.agent_task (some (Json.obj []))
    none [] none none 300 []

/-- The parallel parent step of the C1 scenario. -/
def stepP : WorkflowStep :=
  WorkflowStep.mk "P" "P" WorkflowStepType.parallel none none [stepA, stepB]
    none none 300 []

/-- The C1 workflow definition: a single PARALLEL step with children A
and B. -/
def wfParallel : WorkflowDefinition := ⟨1, [stepP]⟩

/-- The C1 task-executor environment: A succeeds, B raises. -/
def envAB : String → StepOutcome := fun id =>
  if id = "A" then StepOutcome.ok (Json.str "result_A")
  else if id = "B" then StepOutcome.raised "boom"
  else StepOutcome.ok Json.null

/-- A condition evaluator (unused by the C1 scenario). -/
def condFalse : String → Bool := fun _ => false

/-! ## JSON rendering and safety predicates

`render` produces the canonical compact serialization of a `Json` value;
the round-trip claim is about provider content of exactly this shape.
`safeChar` delimits the character set for which serialization needs no
escapes and interacts with none of the parser's regex metacharacters.
-/

/-- Worker for `natChars`; the fuel dominates the number of digits, so it
is never exhausted at the use below. -/
def natCharsGo : Nat → Nat → List Char
  | 0, _ => []
  | Nat.succ fuel, n =>
    if n < 10 then [Char.ofNat (48 + n)]
    else natCharsGo fuel (n / 10) ++ [Char.ofNat (48 + n % 10)]

/-- Decimal digits of a natural number, most significant first. -/
def natChars (n : Nat) : List Char := natCharsGo (n + 1) n

/-- Decimal rendering of an integer. -/
def intChars : Int → List Char
  | Int.ofNat n => natChars n
  | Int.negSucc m => '-' :: natChars (m + 1)

mutual

/-- Compact JSON serialization (no spaces after separators). -/
def render : Json → List Char
  | Json.null => ['n', 'u', 'l', 'l']
  | Json.bool true => ['t', 'r', 'u', 'e']
  | Json.bool false => ['f', 'a', 'l', 's', 'e']
  | Json.num n => intChars n
  | Json.str s => '"' :: s.data ++ ['"']
  | Json.arr xs => '[' :: renderElemsR xs ++ [']']
  | Json.obj fs => '{' :: renderFieldsR fs ++ ['}']

/-- Serialization of object members, comma separated. -/
def renderFieldsR : List (String × Json) → List Char
  | [] => []
  | (k, v) :: [] => '"' :: k.data ++ '"' :: ':' :: render v
  | (k, v) :: f2 :: fs =>
    '"' :: k.data ++ '"' :: ':' :: render v ++ ',' :: renderFieldsR (f2 :: fs)

/-- Serialization of array elements, comma separated. -/
def renderElemsR : List Json → List Char
  | [] => []
  | v :: [] => render v
  | v :: v2 :: vs => render v ++ ',' :: renderElemsR (v2 :: vs)

end

mutual

/-- Fuel sufficient for `parseVal` on the rendered value. -/
def jsize : Json → Nat
  | Json.null => 1
  | Json.bool _ => 1
  | Json.num _ => 1
  | Json.str _ => 1
  | Json.arr xs => 1 + jsizeL xs
  | Json.obj fs => 1 + jsizeF fs

/-- Fuel sufficient for `parseElems` on the rendered elements. -/
def jsizeL : List Json → Nat
  | [] => 1
  | v :: vs => 1 + jsize v + jsizeL vs

/-- Fuel sufficient for `parseMembers` on the rendered members. -/
def jsizeF : List (String × Json) → Nat
  | [] => 1
  | (_, v) :: fs => 1 + jsize v + jsizeF fs

end

/-- Characters that serialize verbatim and never interact with the
parser's regexes: letters, digits, underscore, space, hyphen, dot. -/
def safeChar (c : Char) : Bool :=
  c.isAlphanum || c = '_' || c = ' ' || c = '-' || c = '.'

/-- A usable tool name: non-empty and made of safe characters. -/
def safeName (s : String) : Bool :=
  !s.data.isEmpty && s.data.all safeChar

mutual

/-- Every string (key or value) inside the value is safe. -/
def safeJson : Json → Bool
  | Json.null => true
  | Json.bool _ => true
  | Json.num _ => true
  | Json.str s => s.data.all safeChar
  | Json.arr xs => safeJsonL xs
  | Json.obj fs => safeJsonF fs

/-- Safety of array elements. -/
def safeJsonL : List Json → Bool
  | [] => true
  | v :: vs => safeJson v && safeJsonL vs

/-- Safety of object members. -/
def safeJsonF : List (String × Json) → Bool
  | [] => true
  | (k, v) :: fs => k.data.all safeChar && safeJson v && safeJsonF fs

end

/-- Guard used by the number case of the parser round-trip: the remainder
must not begin with a decimal digit (inside a document it begins with a
separator or closing bracket). -/
def digitGuard : List Char → Bool
  | [] => true
  | c :: _ => !isDigitC c

/-- The provider content string `{"name":"X","arguments":A}` of the
round-trip claim. -/
def toolCallContent (x : String) (a : Json) : String :=
  String.mk (render (Json.obj [("name", Json.str x), ("arguments", a)]))

/-- The C9 counterexample arguments: an object whose own key is `name`. -/
def cxArgs : Json := Json.obj [("name", Json.str "add")]

/-- The C9 witness arguments. -/
def okArgs : Json := Json.obj [("a", Json.num 2), ("b", Json.num 3)]

/-! ## Concrete runtime scenarios -/

/-- Constraints with a small token budget (C3 counterexample). -/
def cfgTokens : AgentConstraints := ⟨3, 300, 100, 10, none, []⟩

/-- A response that costs 150 tokens and carries plain content. -/
def respBig : LLMResponse := ⟨some "hi", 100, 50, 20, []⟩

/-- Constraints with a one-second wall-clock budget (C4 counterexample). -/
def cfgClock : AgentConstraints := ⟨25, 1, 100000, 10, none, []⟩

/-- A structured `think` tool call. -/
def tcThink : StructuredToolCall := ⟨"1", "think", Json.obj [("thought", Json.str "t")]⟩

/-- First slow response: ten minutes of latency, one non-final tool call. -/
def respSlow1 : LLMResponse := ⟨none, 10, 10, 600000, [tcThink]⟩

/-- Second slow response: ten minutes of latency, a plain final answer. -/
def respSlow2 : LLMResponse := ⟨some "done", 10, 10, 600000, []⟩

/-- The C4 provider: the slow tool-call response, then the slow answer. -/
def llmSlow : Nat → LLMResponse := fun i => if i = 0 then respSlow1 else respSlow2

/-- Constraints with no tool restriction (`allowed_tools is None`). -/
def cfgAllTools : AgentConstraints := ⟨25, 300, 100000, 10, none, []⟩

/-- A response whose content is a well-formed JSON tool invocation and
which carries no structured tool calls (C10 witness). -/
def respTextCall : LLMResponse :=
  ⟨some (toolCallContent "add" okArgs), 10, 10, 20, []⟩

/-- The provider that always answers with `respTextCall`. -/
def llmText : Nat → LLMResponse := fun _ => respTextCall

/-- A cheap plain-content response (C3 witness). -/
def respSmall : LLMResponse := ⟨some "hi", 6, 4, 20, []⟩

/-- The C4 provider with all latencies forced to zero. -/
def llmSlowZero : Nat → LLMResponse :=
  fun i => { llmSlow i with latency_ms := 0 }

/-! ## Helper lemmas -/

/-- Looking up the key just stored in a pending map. -/
theorem mapFind_set (m : List (Nat × Task)) (k : Nat) (v : Task) :
    mapFind (mapSet m k v) k = some v := by
  simp [mapFind, mapSet, List.find?]

/-- A removed key is gone from the pending map. -/
theorem mapFind_remove (m : List (Nat × Task)) (k : Nat) :
    mapFind (mapRemove m k) k = none := by
  induction m with
  | nil => rfl
  | cons kv rest ih =>
    by_cases h : kv.1 = k
    · simpa [mapRemove, h] using ih
    · simpa [mapRemove, mapFind, List.find?, h] using ih

/-- The supervisor sweep never accumulates released tasks. -/
theorem sweepAgents_snd (l : List Nat) (m : Nat → Option AgentInstance) :
    (sweepAgents m l).2 = [] := by
  induction l generalizing m with
  | nil => rfl
  | cons h rest ih =>
    cases hm : m h with
    | none => simpa [sweepAgents, Supervisor.handleUnhealthyAgent, hm] using ih m
    | some inst => simpa [sweepAgents, Supervisor.handleUnhealthyAgent, hm] using ih _

/-- Instances outside the unhealthy list keep their record. -/
theorem sweepAgents_not_mem (l : List Nat) (m : Nat → Option AgentInstance)
    (id : Nat) (hid : id ∉ l) :
    (sweepAgents m l).1 id = m id := by
  induction l generalizing m with
  | nil => rfl
  | cons h rest ih =>
    have hne : id ≠ h := fun he => hid (by simp [he])
    have hrest : id ∉ rest := fun hm => hid (by simp [hm])
    cases hm : m h with
    | none => simpa [sweepAgents, Supervisor.handleUnhealthyAgent, hm] using ih m hrest
    | some inst =>
      have := ih (Function.update m h (some { inst with status := AgentStatus.error })) hrest
      simpa [sweepAgents, Supervisor.handleUnhealthyAgent, hm, Function.update, hne]
        using this

/-- An instance in the unhealthy list ends the sweep in ERROR with its
task and heartbeat fields untouched. -/
theorem sweepAgents_mem (l : List Nat) (m : Nat → Option AgentInstance)
    (id : Nat) (inst : AgentInstance) (hid : id ∈ l) (hm : m id = some inst) :
    (sweepAgents m l).1 id = some { inst with status := AgentStatus.error } := by
  induction l generalizing m inst with
  | nil => cases hid
  | cons h rest ih =>
    by_cases he : h = id
    · subst he
      by_cases hrest : h ∈ rest
      · have := ih (Function.update m h (some { inst with status := AgentStatus.error }))
          { inst with status := AgentStatus.error } hrest (by simp [Function.update])
        simpa [sweepAgents, Supervisor.handleUnhealthyAgent, hm] using this
      · have := sweepAgents_not_mem rest
          (Function.update m h (some { inst with status := AgentStatus.error })) h hrest
        simp [sweepAgents, Supervisor.handleUnhealthyAgent, hm, this, Function.update]
    · have hrest : id ∈ rest := by
        cases hid with
        | head => exact absurd rfl he
        | tail _ hmem => exact hmem
      cases hmh : m h with
      | none =>
        simpa [sweepAgents, Supervisor.handleUnhealthyAgent, hmh]
          using ih m inst hrest hm
      | some insth =>
        have hm' : Function.update m h
            (some { insth with status := AgentStatus.error }) id = some inst := by
          rw [Function.update_noteq (fun hq => he hq.symm)]
          exact hm
        have := ih (Function.update m h (some { insth with status := AgentStatus.error }))
          inst hrest hm'
        simpa [sweepAgents, Supervisor.handleUnhealthyAgent, hmh] using this

/-! ## Claim theorems -/

/-- C8: `TaskQueue.put` appends the task to the FIFO list of exactly its
own priority level, and when every level strictly above `p` is empty and
level `p` holds `t` at its head, `TaskQueue.get` dequeues `t`, leaving the
tail of level `p` — so the next dequeue always comes from the highest
non-empty level and tasks within one level leave in enqueue order. -/
theorem task_queue_priority_fifo :
    (∀ (q : TaskQueue) (t : Task),
      ((q.put t).queues t.priority = q.queues t.priority ++ [t]) ∧
      ∀ p, p ≠ t.priority → (q.put t).queues p = q.queues p) ∧
    (∀ (q : TaskQueue) (p : TaskPriority) (t : Task) (rest : List Task),
      q.queues p = t :: rest →
      (∀ p', p.toNat < p'.toNat → q.queues p' = []) →
      q.get = some (t, ⟨Function.update q.queues p rest⟩)) := by
  constructor
  · intro q t
    constructor
    · simp [TaskQueue.put]
    · intro p hp
      simp [TaskQueue.put, Function.update, hp]
  · intro q p t rest hp hhigher
    cases p with
    | low =>
      have h3 := hhigher TaskPriority.critical (by decide)
      have h2 := hhigher TaskPriority.high (by decide)
      have h1 := hhigher TaskPriority.normal (by decide)
      simp [TaskQueue.get, TaskQueue.getFrom, priorityScanOrder, h1, h2, h3, hp]
    | normal =>
      have h3 := hhigher TaskPriority.critical (by decide)
      have h2 := hhigher TaskPriority.high (by decide)
      simp [TaskQueue.get, TaskQueue.getFrom, priorityScanOrder, h2, h3, hp]
    | high =>
      have h3 := hhigher TaskPriority.critical (by decide)
      simp [TaskQueue.get, TaskQueue.getFrom, priorityScanOrder, h3, hp]
    | critical =>
      simp [TaskQueue.get, TaskQueue.getFrom, priorityScanOrder, hp]

/-- C8 witness: on a queue holding `sampleTask` then `sampleTask2` at
NORMAL, `put` appended in order, untouched levels unchanged, and `get`
pops `sampleTask` first. -/
theorem task_queue_priority_fifo_witness :
    ((emptyQueue.put sampleTask).put sampleTask2).queues TaskPriority.normal =
      [sampleTask, sampleTask2] ∧
    ((emptyQueue.put sampleTask).put sampleTask2).queues TaskPriority.high = [] ∧
    ((emptyQueue.put sampleTask).put sampleTask2).get =
      some (sampleTask,
        ⟨Function.update ((emptyQueue.put sampleTask).put sampleTask2).queues
          TaskPriority.normal [sampleTask2]⟩) := by
  refine ⟨?_, ?_, ?_⟩
  · have h1 := (task_queue_priority_fifo.1 (emptyQueue.put sampleTask) sampleTask2).1
    have h0 := (task_queue_priority_fifo.1 emptyQueue sampleTask).1
    simpa [sampleTask, sampleTask2, emptyQueue, TaskQueue.put, Function.update] using h1
  · exact (task_queue_priority_fifo.1 (emptyQueue.put sampleTask) sampleTask2).2
      TaskPriority.high (by decide)
  · exact task_queue_priority_fifo.2 ((emptyQueue.put sampleTask).put sampleTask2)
      TaskPriority.normal sampleTask [sampleTask2] (by decide)
      (by intro p' hp'; cases p' <;> first | rfl | exact absurd hp' (by decide))

/-- C2 counterexample: `fail_task` on the retriable `runningTask` first
marks it FAILED — a terminal status — and then stores it back in the
pending map with the non-terminal status PENDING and `retry_count = 1`,
so a task that has been marked FAILED is moved back to a non-terminal
status by the orchestrator. -/
theorem fail_task_resurrects_failed_task :
    (runningTask.fail "boom").status = TaskStatus.failed ∧
    (runningTask.fail "boom").status.isTerminal = true ∧
    mapFind (sampleOrchestrator.failTask 5 "boom").pending 5 =
      some { runningTask.fail "boom" with
               retry_count := 1, status := TaskStatus.pending } ∧
    TaskStatus.pending.isTerminal = false := by
  refine ⟨rfl, rfl, by decide, rfl⟩

/-- C2 amended: `fail_task` first marks the task FAILED; when the task
still has retry budget it is re-queued with status PENDING and
`retry_count` incremented (so FAILED is not sticky for retriable tasks);
only when the budget is exhausted does the task stay FAILED, and it is
then dropped from the pending map so no later orchestrator operation can
touch it. -/
theorem fail_task_retry_semantics (o : Orchestrator) (id : Nat) (t : Task)
    (e : String) (hfind : mapFind o.pending id = some t) :
    ((t.fail e).canRetry = true →
      mapFind (o.failTask id e).pending id =
        some { t.fail e with
                 retry_count := t.retry_count + 1,
                 status := TaskStatus.pending } ∧
      (o.failTask id e).queue =
        o.queue.put { t.fail e with
                        retry_count := t.retry_count + 1,
                        status := TaskStatus.pending }) ∧
    ((t.fail e).canRetry = false →
      mapFind (o.failTask id e).pending id = none ∧
      (t.fail e).status = TaskStatus.failed) := by
  constructor
  · intro hretry
    unfold Orchestrator.failTask
    rw [hfind]
    simp only [hretry, if_true]
    exact ⟨mapFind_set _ _ _, rfl⟩
  · intro hnoretry
    unfold Orchestrator.failTask
    rw [hfind]
    simp only [hnoretry, Bool.false_eq_true, if_false]
    exact ⟨mapFind_remove _ _, rfl⟩

/-- C2 witness: the amended semantics evaluated on `sampleOrchestrator`. -/
theorem fail_task_retry_semantics_witness :
    mapFind (sampleOrchestrator.failTask 5 "boom").pending 5 =
      some { runningTask.fail "boom" with
               retry_count := 1, status := TaskStatus.pending } := by
  exact ((fail_task_retry_semantics sampleOrchestrator 5 runningTask "boom"
    (by decide)).1 (by decide)).1

/-- C6 counterexample: two distinct events of the same aggregate produced
by the event factories carry the same `(aggregate_id, version)` pair —
every factory leaves `version` at the `DomainEvent` default 1 — so the
pairs are not distinct and cannot order the aggregate's events. -/
theorem event_versions_collide :
    (TaskEvent.created 100 7 "t" "" (Json.obj [])).event_id ≠
      (TaskEvent.completed 101 7 (Json.str "ok")).event_id ∧
    (TaskEvent.created 100 7 "t" "" (Json.obj [])).aggregate_id =
      (TaskEvent.completed 101 7 (Json.str "ok")).aggregate_id ∧
    (TaskEvent.created 100 7 "t" "" (Json.obj [])).version =
      (TaskEvent.completed 101 7 (Json.str "ok")).version := by
  exact ⟨by decide, rfl, rfl⟩

/-- C6 amended: every core event factory produces `version = 1`, and the
event store appends events with their version field verbatim — no
per-aggregate version counter exists, so `(aggregate_id, version)` does
not increase, order, or distinguish an aggregate's events. -/
theorem factory_version_one_append_verbatim :
    (∀ eid tid n d p, (TaskEvent.created eid tid n d p).version = 1) ∧
    (∀ eid tid aid, (TaskEvent.assigned eid tid aid).version = 1) ∧
    (∀ eid tid r, (TaskEvent.completed eid tid r).version = 1) ∧
    (∀ eid tid e, (TaskEvent.failed eid tid e).version = 1) ∧
    (∀ eid aid tid pt ct, (AgentEvent.llmCall eid aid tid pt ct).version = 1) ∧
    (∀ eid aid tid n s, (AgentEvent.toolCall eid aid tid n s).version = 1) ∧
    (∀ eid wid xid p, (WorkflowEvent.started eid wid xid p).version = 1) ∧
    (∀ eid xid sid r, (WorkflowEvent.stepCompleted eid xid sid r).version = 1) ∧
    (∀ (store : EventStore) (e : DomainEvent),
      (store.append e).map DomainEvent.version =
        store.map DomainEvent.version ++ [e.version]) ∧
    (∀ (store : EventStore) (es : List DomainEvent),
      (store.appendBatch es).map DomainEvent.version =
        store.map DomainEvent.version ++ es.map DomainEvent.version) := by
  refine ⟨by intros; rfl, by intros; rfl, by intros; rfl, by intros; rfl,
    by intros; rfl, by intros; rfl, by intros; rfl, by intros; rfl, ?_, ?_⟩
  · intro store e
    simp [EventStore.append]
  · intro store es
    simp [EventStore.appendBatch]

/-- C7 counterexample: with retry budget 1, an attempt environment that
raises a pure invocation-validation error on every attempt is retried —
two attempts are made with a sleep between them — instead of failing
immediately without retry, because the executor's `except Exception`
clause treats validation errors like any other raise. -/
theorem validation_error_is_retried :
    validationEnv 0 = AttemptOutcome.raised "unexpected keyword argument" true ∧
    ToolExecutor.execute (some ⟨30, 1, 1⟩) 0 "add" validationEnv =
      ⟨false, none, some "unexpected keyword argument", 2, 1⟩ := by
  exact ⟨rfl, rfl⟩

/-- C1 (code bug): a workflow with one PARALLEL step whose child A
succeeds (and has a compensation) while child B fails.  The engine marks
the execution FAILED inside the child, but `_execute_parallel` returns
its aggregate dict regardless, `execute` records the parallel step as
completed, and the epilogue stamps the execution COMPLETED: the final
status is COMPLETED (never COMPENSATING/COMPENSATED), `completed_steps`
is `["A", "P"]`, and no compensation is ever submitted, contradicting the
documented saga semantics. -/
theorem parallel_child_failure_completes_without_compensation :
    (engineExecute envAB condFalse wfParallel freshExecution).status =
      WorkflowStatus.completed ∧
    (engineExecute envAB condFalse wfParallel freshExecution).completed_steps =
      ["A", "P"] ∧
    (engineExecute envAB condFalse wfParallel freshExecution).compLog = [] ∧
    (engineExecute envAB condFalse wfParallel freshExecution).failed_step_id =
      some "B" ∧
    (engineExecute envAB condFalse wfParallel freshExecution).error =
      some "boom" ∧
    stepA.compensation.isSome = true := by
  exact ⟨rfl, rfl, rfl, rfl, rfl, rfl⟩

/-- C3 counterexample: a single LLM call costing 150 tokens against a
budget of 100 makes `execute_task` return a failed result whose
`total_tokens` is 150 — the returned `total_tokens` exceeds
`max_tokens_per_task`, refuting the claimed `≤` bound at return. -/
theorem token_budget_exceeded_at_return :
    (executeTask cfgTokens (fun _ => respBig)).1.total_tokens = 150 ∧
    cfgTokens.max_tokens_per_task = 100 ∧
    (executeTask cfgTokens (fun _ => respBig)).1.success = false ∧
    ¬ ((executeTask cfgTokens (fun _ => respBig)).1.total_tokens ≤
        cfgTokens.max_tokens_per_task) := by
  exact ⟨rfl, rfl, rfl, by decide⟩

/-- C4 counterexample: with `max_execution_time_seconds = 1`, two LLM
calls of ten minutes each run to a successful completion in two
iterations — the runtime keeps iterating far past the wall-clock budget
and returns success with no timeout error. -/
theorem runtime_continues_past_wall_clock_budget :
    (executeTask cfgClock llmSlow).1.success = true ∧
    (executeTask cfgClock llmSlow).1.error = none ∧
    (executeTask cfgClock llmSlow).1.iterations = 2 ∧
    (executeTask cfgClock llmSlow).1.execution_time_ms = 1200000 ∧
    cfgClock.max_execution_time_seconds = 1 := by
  exact ⟨rfl, rfl, rfl, rfl, rfl⟩

/-- C5 counterexample: the health check on an instance whose heartbeat is
40 s old (timeout 30 s) moves it to ERROR, but although the instance
carries `current_task_id = 7`, the sweep releases nothing back to the
queue — no task re-queue or retry-count increment happens anywhere in the
supervisor. -/
theorem supervisor_does_not_release_task :
    staleInstance.current_task_id = some 7 ∧
    (sampleSupervisor.checkHealth 40000).1 1 =
      some ⟨AgentStatus.error, some 7, some 0⟩ ∧
    (sampleSupervisor.checkHealth 40000).2 = [] := by
  exact ⟨rfl, by decide, rfl⟩

/-- C5 amended: a registered, non-terminated instance whose last
heartbeat is strictly older than the timeout is moved to ERROR by the
sweep (its task and heartbeat fields untouched), and the sweep never
releases any task back to the queue — the handler only logs when
`current_task_id` is set. -/
theorem supervisor_marks_error_only (s : Supervisor) (now : Int) (id : Nat)
    (inst : AgentInstance) (hb : Int)
    (hmem : id ∈ s.agentIds)
    (hagent : s.agents id = some inst)
    (hterm : inst.status ≠ AgentStatus.terminated)
    (hhb : inst.last_heartbeat = some hb)
    (hstale : s.heartbeat_timeout < now - hb) :
    (s.checkHealth now).1 id = some { inst with status := AgentStatus.error } ∧
    (s.checkHealth now).2 = [] := by
  have hunhealthy : s.isUnhealthy now id = true := by
    simp [Supervisor.isUnhealthy, hagent, hhb, hterm, hstale]
  constructor
  · exact sweepAgents_mem _ _ _ _ (List.mem_filter.mpr ⟨hmem, hunhealthy⟩) hagent
  · exact sweepAgents_snd _ _

/-- C5 witness: the amended behaviour on the concrete stale supervisor. -/
theorem supervisor_marks_error_only_witness :
    (sampleSupervisor.checkHealth 40000).1 1 =
      some { staleInstance with status := AgentStatus.error } ∧
    (sampleSupervisor.checkHealth 40000).2 = [] := by
  exact supervisor_marks_error_only sampleSupervisor 40000 1 staleInstance 0
    (by decide) (by decide) (by decide) rfl (by decide)

/-- Loop invariant for the runtime: the returned iteration count never
exceeds the entry count plus the remaining budget, and every successful
return happens strictly under the token budget (the success exits all sit
behind the token check of the same iteration). -/
theorem execLoop_bounds (cfg : AgentConstraints) (llm : Nat → LLMResponse) :
    ∀ (rem iters toks el : Nat) (log : List (String × Json)),
    (execLoop cfg llm rem iters toks el log).1.iterations ≤ iters + rem ∧
    ((execLoop cfg llm rem iters toks el log).1.success = true →
      (execLoop cfg llm rem iters toks el log).1.total_tokens <
        cfg.max_tokens_per_task) := by
  intro rem
  induction rem with
  | zero =>
    intro iters toks el log
    exact ⟨Nat.le_refl _, by intro h; exact absurd h (by simp [execLoop])⟩
  | succ rem ih =>
    intro iters toks el log
    have harith : iters + 1 + rem = iters + (rem + 1) := by omega
    by_cases htok : cfg.max_tokens_per_task ≤
        toks + (llm iters).prompt_tokens + (llm iters).completion_tokens
    · constructor
      · simp only [execLoop, htok, if_true]
        omega
      · intro h
        simp only [execLoop, htok, if_true] at h
        cases h
    · cases htc : (llm iters).hasToolCalls with
      | true =>
        cases hh : handleToolCalls log (llm iters).tool_calls with
        | mk ans log1 =>
          cases ans with
          | some answer =>
            constructor
            · simp only [execLoop, htok, if_false, htc, if_true, hh]
              omega
            · intro _
              simp only [execLoop, htok, if_false, htc, if_true, hh]
              omega
          | none =>
            have := ih (iters + 1)
              (toks + (llm iters).prompt_tokens + (llm iters).completion_tokens)
              (el + (llm iters).latency_ms) log1
            constructor
            · simp only [execLoop, htok, if_false, htc, if_true, hh]
              omega
            · simp only [execLoop, htok, if_false, htc, if_true, hh]
              exact this.2
      | false =>
        cases hp : parseTextToolCall ((llm iters).content.getD "")
            (cfg.allowed_tools.getD []) with
        | some pr =>
          cases pr with
          | mk toolName args =>
            by_cases hfin : toolName = "final_answer"
            · constructor
              · simp only [execLoop, htok, if_false, htc, Bool.false_eq_true,
                  hp, hfin, if_true]
                omega
              · intro _
                simp only [execLoop, htok, if_false, htc, Bool.false_eq_true,
                  hp, hfin, if_true]
                omega
            · have := ih (iters + 1)
                (toks + (llm iters).prompt_tokens + (llm iters).completion_tokens)
                (el + (llm iters).latency_ms) (log ++ [(toolName, args)])
              constructor
              · simp only [execLoop, htok, if_false, htc, Bool.false_eq_true,
                  hp, hfin]
                omega
              · simp only [execLoop, htok, if_false, htc, Bool.false_eq_true,
                  hp, hfin]
                exact this.2
        | none =>
          constructor
          · simp only [execLoop, htok, if_false, htc, Bool.false_eq_true, hp]
            omega
          · intro _
            simp only [execLoop, htok, if_false, htc, Bool.false_eq_true, hp]
            omega

/-- C3 amended: at every return of `execute_task`, `iterations ≤
max_iterations` holds; the token bound holds only for successful returns
(`total_tokens < max_tokens_per_task`), while a failed token-limit return
reports the accumulated count, which exceeds the budget by up to the final
call's tokens. -/
theorem runtime_iteration_token_budgets (cfg : AgentConstraints)
    (llm : Nat → LLMResponse) :
    (executeTask cfg llm).1.iterations ≤ cfg.max_iterations ∧
    ((executeTask cfg llm).1.success = true →
      (executeTask cfg llm).1.total_tokens < cfg.max_tokens_per_task) := by
  have h := execLoop_bounds cfg llm cfg.max_iterations 0 0 0 []
  exact ⟨by simpa [executeTask] using h.1, by simpa [executeTask] using h.2⟩

/-- C3 witness: the amended bounds on a concrete successful run. -/
theorem runtime_iteration_token_budgets_witness :
    (executeTask cfgTokens (fun _ => respSmall)).1.iterations ≤
      cfgTokens.max_iterations ∧
    (executeTask cfgTokens (fun _ => respSmall)).1.total_tokens <
      cfgTokens.max_tokens_per_task := by
  refine ⟨(runtime_iteration_token_budgets cfgTokens (fun _ => respSmall)).1, ?_⟩
  exact (runtime_iteration_token_budgets cfgTokens (fun _ => respSmall)).2 rfl

/-- The runtime's control flow never reads the clock: two providers that
differ only in their latencies produce identical results in every field
except the reported elapsed time, and identical tool-invocation logs. -/
theorem execLoop_latency_invariant (cfg : AgentConstraints)
    (llm llm' : Nat → LLMResponse)
    (h : ∀ i, ∃ lat, llm' i = { llm i with latency_ms := lat }) :
    ∀ (rem iters toks el el' : Nat) (log : List (String × Json)),
    (execLoop cfg llm rem iters toks el log).1.success =
      (execLoop cfg llm' rem iters toks el' log).1.success ∧
    (execLoop cfg llm rem iters toks el log).1.result =
      (execLoop cfg llm' rem iters toks el' log).1.result ∧
    (execLoop cfg llm rem iters toks el log).1.error =
      (execLoop cfg llm' rem iters toks el' log).1.error ∧
    (execLoop cfg llm rem iters toks el log).1.iterations =
      (execLoop cfg llm' rem iters toks el' log).1.iterations ∧
    (execLoop cfg llm rem iters toks el log).1.total_tokens =
      (execLoop cfg llm' rem iters toks el' log).1.total_tokens ∧
    (execLoop cfg llm rem iters toks el log).2 =
      (execLoop cfg llm' rem iters toks el' log).2 := by
  intro rem
  induction rem with
  | zero =>
    intro iters toks el el' log
    refine ⟨?_, ?_, ?_, ?_, ?_, ?_⟩ <;> trivial
  | succ rem ih =>
    intro iters toks el el' log
    obtain ⟨lat, hl⟩ := h iters
    by_cases htok : cfg.max_tokens_per_task ≤
        toks + (llm iters).prompt_tokens + (llm iters).completion_tokens
    · simp only [execLoop, hl, htok, if_true]
      refine ⟨?_, ?_, ?_, ?_, ?_, ?_⟩ <;> trivial
    · cases hte : (llm iters).tool_calls.isEmpty with
      | false =>
        cases hh : handleToolCalls log (llm iters).tool_calls with
        | mk ans log1 =>
          cases ans with
          | some answer =>
            simp only [execLoop, hl, htok, if_false, LLMResponse.hasToolCalls,
              hte, Bool.not_false, if_true, hh]
            refine ⟨?_, ?_, ?_, ?_, ?_, ?_⟩ <;> trivial
          | none =>
            simp only [execLoop, hl, htok, if_false, LLMResponse.hasToolCalls,
              hte, Bool.not_false, if_true, hh]
            exact ih (iters + 1)
              (toks + (llm iters).prompt_tokens + (llm iters).completion_tokens)
              (el + (llm iters).latency_ms) (el' + lat) log1
      | true =>
        cases hp : parseTextToolCall ((llm iters).content.getD "")
            (cfg.allowed_tools.getD []) with
        | some pr =>
          cases pr with
          | mk toolName args =>
            by_cases hfin : toolName = "final_answer"
            · simp only [execLoop, hl, htok, if_false, LLMResponse.hasToolCalls,
                hte, Bool.not_true, Bool.false_eq_true, hp, hfin, if_true]
              refine ⟨?_, ?_, ?_, ?_, ?_, ?_⟩ <;> trivial
            · simp only [execLoop, hl, htok, if_false, LLMResponse.hasToolCalls,
                hte, Bool.not_true, Bool.false_eq_true, hp, hfin]
              exact ih (iters + 1)
                (toks + (llm iters).prompt_tokens + (llm iters).completion_tokens)
                (el + (llm iters).latency_ms) (el' + lat) (log ++ [(toolName, args)])
        | none =>
          simp only [execLoop, hl, htok, if_false, LLMResponse.hasToolCalls,
            hte, Bool.not_true, Bool.false_eq_true, hp]
          refine ⟨?_, ?_, ?_, ?_, ?_, ?_⟩ <;> trivial

/-- C4 amended: `execute_task` enforces no wall-clock budget at all —
`max_execution_time_seconds` is never consulted by the loop.  The outcome
(success flag, result, error, iteration count, token count, and the tool
invocations) is invariant under arbitrary changes to the providers' call
latencies; only the reported `execution_time_ms` differs. -/
theorem runtime_ignores_wall_clock (cfg : AgentConstraints)
    (llm llm' : Nat → LLMResponse)
    (h : ∀ i, ∃ lat, llm' i = { llm i with latency_ms := lat }) :
    (executeTask cfg llm).1.success = (executeTask cfg llm').1.success ∧
    (executeTask cfg llm).1.result = (executeTask cfg llm').1.result ∧
    (executeTask cfg llm).1.error = (executeTask cfg llm').1.error ∧
    (executeTask cfg llm).1.iterations = (executeTask cfg llm').1.iterations ∧
    (executeTask cfg llm).1.total_tokens = (executeTask cfg llm').1.total_tokens ∧
    (executeTask cfg llm).2 = (executeTask cfg llm').2 := by
  simpa [executeTask] using
    execLoop_latency_invariant cfg llm llm' h cfg.max_iterations 0 0 0 0 []

/-- C4 witness: the ten-minute-latency run and its zero-latency twin agree
on everything but the reported elapsed time. -/
theorem runtime_ignores_wall_clock_witness :
    (executeTask cfgClock llmSlow).1.success =
      (executeTask cfgClock llmSlowZero).1.success ∧
    (executeTask cfgClock llmSlow).1.iterations =
      (executeTask cfgClock llmSlowZero).1.iterations := by
  have h := runtime_ignores_wall_clock cfgClock llmSlow llmSlowZero
    (fun i => ⟨0, rfl⟩)
  exact ⟨h.1, h.2.2.2.1⟩

/-- The retry loop consults an attempt's outcome only through "did it
succeed": two environments agreeing on that produce the same attempt
count, success flag, and sleep count. -/
theorem runToolAttempts_uniform (env env' : Nat → AttemptOutcome)
    (h : ∀ k, (env k).isOk = (env' k).isOk) (msg msg' : String) :
    ∀ (rem idx slept : Nat) (e1 e2 : Option String),
    (runToolAttempts env msg rem idx slept e1).attempts =
      (runToolAttempts env' msg' rem idx slept e2).attempts ∧
    (runToolAttempts env msg rem idx slept e1).success =
      (runToolAttempts env' msg' rem idx slept e2).success ∧
    (runToolAttempts env msg rem idx slept e1).sleeps =
      (runToolAttempts env' msg' rem idx slept e2).sleeps := by
  intro rem
  induction rem with
  | zero => intro idx slept e1 e2; exact ⟨rfl, rfl, rfl⟩
  | succ rem ih =>
    intro idx slept e1 e2
    have hk := h idx
    cases henv : env idx with
    | ok r =>
      cases henv' : env' idx with
      | ok r' => simp [runToolAttempts, henv, henv']
      | timeout => rw [henv, henv'] at hk; cases hk
      | raised m v => rw [henv, henv'] at hk; cases hk
    | timeout =>
      cases henv' : env' idx with
      | ok r' => rw [henv, henv'] at hk; cases hk
      | timeout =>
        simp only [runToolAttempts, henv, henv']
        exact ih (idx + 1) (if 0 < rem then slept + 1 else slept) _ _
      | raised m v =>
        simp only [runToolAttempts, henv, henv']
        exact ih (idx + 1) (if 0 < rem then slept + 1 else slept) _ _
    | raised m v =>
      cases henv' : env' idx with
      | ok r' => rw [henv, henv'] at hk; cases hk
      | timeout =>
        simp only [runToolAttempts, henv, henv']
        exact ih (idx + 1) (if 0 < rem then slept + 1 else slept) _ _
      | raised m' v' =>
        simp only [runToolAttempts, henv, henv']
        exact ih (idx + 1) (if 0 < rem then slept + 1 else slept) _ _

/-- The retry loop stops after at most the permitted attempts. -/
theorem runToolAttempts_le (env : Nat → AttemptOutcome) (msg : String) :
    ∀ (rem idx slept : Nat) (e : Option String),
    (runToolAttempts env msg rem idx slept e).attempts ≤ idx + rem := by
  intro rem
  induction rem with
  | zero => intro idx slept e; exact Nat.le_refl _
  | succ rem ih =>
    intro idx slept e
    cases henv : env idx with
    | ok r =>
      simp only [runToolAttempts, henv]
      omega
    | timeout =>
      simp only [runToolAttempts, henv]
      have := ih (idx + 1) (if 0 < rem then slept + 1 else slept) (some msg)
      omega
    | raised m v =>
      simp only [runToolAttempts, henv]
      have := ih (idx + 1) (if 0 < rem then slept + 1 else slept) (some m)
      omega

/-- C7 amended: `ToolExecutor.execute` retries uniformly on timeout and on
every raised exception — validation errors included — up to
`retry_count or max_retries` extra attempts, sleeping between attempts;
its attempt count, success flag, and sleep count depend on the attempt
outcomes only through success/failure, never through the kind of
failure. -/
theorem tool_executor_uniform_retry (cfg : ToolCfg) (maxR : Nat)
    (name name' : String) (env env' : Nat → AttemptOutcome)
    (h : ∀ k, (env k).isOk = (env' k).isOk) :
    (ToolExecutor.execute (some cfg) maxR name env).attempts =
      (ToolExecutor.execute (some cfg) maxR name' env').attempts ∧
    (ToolExecutor.execute (some cfg) maxR name env).success =
      (ToolExecutor.execute (some cfg) maxR name' env').success ∧
    (ToolExecutor.execute (some cfg) maxR name env).sleeps =
      (ToolExecutor.execute (some cfg) maxR name' env').sleeps ∧
    (ToolExecutor.execute (some cfg) maxR name env).attempts ≤
      (if cfg.retry_count ≠ 0 then cfg.retry_count else maxR) + 1 := by
  refine ⟨?_, ?_, ?_, ?_⟩
  · exact (runToolAttempts_uniform env env' h _ _ _ 0 0 none none).1
  · exact (runToolAttempts_uniform env env' h _ _ _ 0 0 none none).2.1
  · exact (runToolAttempts_uniform env env' h _ _ _ 0 0 none none).2.2
  · have hb := runToolAttempts_le env
      ("Tool execution timed out after " ++ toString cfg.timeout_seconds ++ "s")
      ((if cfg.retry_count ≠ 0 then cfg.retry_count else maxR) + 1) 0 0 none
    simpa [ToolExecutor.execute] using hb

/-- C7 witness: a validation raise and a timeout drive the executor
identically. -/
theorem tool_executor_uniform_retry_witness :
    (ToolExecutor.execute (some ⟨30, 1, 1⟩) 0 "add" validationEnv).attempts =
      (ToolExecutor.execute (some ⟨30, 1, 1⟩) 0 "add"
        (fun _ => AttemptOutcome.timeout)).attempts ∧
    (ToolExecutor.execute (some ⟨30, 1, 1⟩) 0 "add" validationEnv).attempts ≤ 2 := by
  have h := tool_executor_uniform_retry ⟨30, 1, 1⟩ 0 "add" "add" validationEnv
    (fun _ => AttemptOutcome.timeout) (fun k => rfl)
  exact ⟨h.1, by simpa using h.2.2.2⟩

/-- With an empty allow-list no fragment is ever accepted as a call. -/
theorem toolCallFromJson_nil (data : Json) : toolCallFromJson data [] = none := by
  cases data with
  | obj fields =>
    cases hn : Json.objGet fields "name" with
    | none => simp [toolCallFromJson, hn]
    | some v => cases v <;> simp [toolCallFromJson, hn]
  | null => rfl
  | bool b => rfl
  | num n => rfl
  | str s => rfl
  | arr xs => rfl

/-- With an empty allow-list every pattern's fragment check fails. -/
theorem tryJsonFragment_nil (js : List Char) : tryJsonFragment [] js = none := by
  unfold tryJsonFragment
  by_cases hh : headIs (pyStrip js) '{'
  · simp only [hh, if_true]
    cases hl : jsonLoads (pyStrip js) with
    | none => rfl
    | some d => simp [toolCallFromJson_nil]
  · simp [hh]

/-- `_parse_text_tool_call` with an empty allow-list returns `None` on
every content string. -/
theorem parseTextToolCall_empty_allowlist (c : List Char) :
    parseTextToolCallL c [] = none := by
  unfold parseTextToolCallL
  by_cases he : c.isEmpty
  · simp [he]
  · simp only [he, Bool.false_eq_true, if_false]
    cases h1 : p1Search (pyStrip c) with
    | some g =>
      cases g with
      | mk g0 g1 =>
        simp only [tryJsonFragment_nil]
        cases h2 : p2Search (pyStrip c) with
        | some g2 =>
          simp only [tryJsonFragment_nil]
          cases h3 : p3Search (pyStrip c) with
          | some g3 =>
            simp only [tryJsonFragment_nil]
            by_cases hd : headIs (pyStrip c) '{' && lastIs (pyStrip c) '}'
            · simp only [hd, if_true]
              cases hl : jsonLoads (pyStrip c) with
              | none => rfl
              | some d => simp [toolCallFromJson_nil]
            · simp [hd]
          | none =>
            by_cases hd : headIs (pyStrip c) '{' && lastIs (pyStrip c) '}'
            · simp only [hd, if_true]
              cases hl : jsonLoads (pyStrip c) with
              | none => rfl
              | some d => simp [toolCallFromJson_nil]
            · simp [hd]
        | none =>
          cases h3 : p3Search (pyStrip c) with
          | some g3 =>
            simp only [tryJsonFragment_nil]
            by_cases hd : headIs (pyStrip c) '{' && lastIs (pyStrip c) '}'
            · simp only [hd, if_true]
              cases hl : jsonLoads (pyStrip c) with
              | none => rfl
              | some d => simp [toolCallFromJson_nil]
            · simp [hd]
          | none =>
            by_cases hd : headIs (pyStrip c) '{' && lastIs (pyStrip c) '}'
            · simp only [hd, if_true]
              cases hl : jsonLoads (pyStrip c) with
              | none => rfl
              | some d => simp [toolCallFromJson_nil]
            · simp [hd]
    | none =>
      cases h2 : p2Search (pyStrip c) with
      | some g2 =>
        simp only [tryJsonFragment_nil]
        cases h3 : p3Search (pyStrip c) with
        | some g3 =>
          simp only [tryJsonFragment_nil]
          by_cases hd : headIs (pyStrip c) '{' && lastIs (pyStrip c) '}'
          · simp only [hd, if_true]
            cases hl : jsonLoads (pyStrip c) with
            | none => rfl
            | some d => simp [toolCallFromJson_nil]
          · simp [hd]
        | none =>
          by_cases hd : headIs (pyStrip c) '{' && lastIs (pyStrip c) '}'
          · simp only [hd, if_true]
            cases hl : jsonLoads (pyStrip c) with
            | none => rfl
            | some d => simp [toolCallFromJson_nil]
          · simp [hd]
      | none =>
        cases h3 : p3Search (pyStrip c) with
        | some g3 =>
          simp only [tryJsonFragment_nil]
          by_cases hd : headIs (pyStrip c) '{' && lastIs (pyStrip c) '}'
          · simp only [hd, if_true]
            cases hl : jsonLoads (pyStrip c) with
            | none => rfl
            | some d => simp [toolCallFromJson_nil]
          · simp [hd]
        | none =>
          by_cases hd : headIs (pyStrip c) '{' && lastIs (pyStrip c) '}'
          · simp only [hd, if_true]
            cases hl : jsonLoads (pyStrip c) with
            | none => rfl
            | some d => simp [toolCallFromJson_nil]
          · simp [hd]

/-- C10: with `allowed_tools = None` the runtime calls the text parser
with an empty allow-list, so no text content is ever executed as a tool
call: the first response without structured tool calls — even a
well-formed JSON invocation of a registered tool — is returned unchanged
as the successful final answer, with an empty tool-invocation log. -/
theorem unrestricted_tools_disable_text_parsing (cfg : AgentConstraints)
    (llm : Nat → LLMResponse)
    (hallow : cfg.allowed_tools = none)
    (hnocalls : (llm 0).tool_calls = [])
    (hiter : 0 < cfg.max_iterations)
    (htok : (llm 0).prompt_tokens + (llm 0).completion_tokens <
      cfg.max_tokens_per_task) :
    (executeTask cfg llm).1 =
      ⟨true, (llm 0).content.map Json.str, none, 1,
        (llm 0).prompt_tokens + (llm 0).completion_tokens,
        (llm 0).latency_ms⟩ ∧
    (executeTask cfg llm).2 = [] := by
  obtain ⟨k, hk⟩ : ∃ k, cfg.max_iterations = k + 1 :=
    ⟨cfg.max_iterations - 1, by omega⟩
  have htc : (llm 0).hasToolCalls = false := by
    simp [LLMResponse.hasToolCalls, hnocalls]
  have hparse : parseTextToolCall ((llm 0).content.getD "")
      (cfg.allowed_tools.getD []) = none := by
    rw [hallow]
    exact parseTextToolCall_empty_allowlist _
  have htok' : ¬ (cfg.max_tokens_per_task ≤
      0 + (llm 0).prompt_tokens + (llm 0).completion_tokens) := by omega
  constructor
  · simp only [executeTask, hk, execLoop, htok', if_false, htc,
      Bool.false_eq_true, hparse]
    simp
  · simp only [executeTask, hk, execLoop, htok', if_false, htc,
      Bool.false_eq_true, hparse]

/-- C10 witness: an agent with unrestricted tools receiving a well-formed
JSON invocation of the registered tool `add` as plain content returns it
verbatim as the successful answer and never invokes a tool. -/
theorem unrestricted_tools_disable_text_parsing_witness :
    (executeTask cfgAllTools llmText).1 =
      ⟨true, some (Json.str (toolCallContent "add" okArgs)), none, 1, 20, 20⟩ ∧
    (executeTask cfgAllTools llmText).2 = [] ∧
    (parseTextToolCall (toolCallContent "add" okArgs) ["add"]).isSome = true := by
  have h := unrestricted_tools_disable_text_parsing cfgAllTools llmText rfl rfl
    (by decide) (by decide)
  exact ⟨h.1, h.2, rfl⟩

/-! ### Helper lemmas for the parser round-trip (C9) -/

/-- A scan stops exactly at the first character violating the predicate. -/
theorem takeWhile_append_stop (p : Char → Bool) (l : List Char) (c : Char)
    (rest : List Char) (hall : ∀ x ∈ l, p x = true) (hc : p c = false) :
    (l ++ c :: rest).takeWhile p = l := by
  induction l with
  | nil => simp [List.takeWhile_cons, hc]
  | cons x xs ih =>
    have hx := hall x (List.mem_cons_self _ _)
    simp [List.takeWhile_cons, hx,
      ih (fun y hy => hall y (List.mem_cons_of_mem _ hy))]

/-- Companion of `takeWhile_append_stop` for the dropped part. -/
theorem dropWhile_append_stop (p : Char → Bool) (l : List Char) (c : Char)
    (rest : List Char) (hall : ∀ x ∈ l, p x = true) (hc : p c = false) :
    (l ++ c :: rest).dropWhile p = c :: rest := by
  induction l with
  | nil => simp [List.dropWhile_cons, hc]
  | cons x xs ih =>
    have hx := hall x (List.mem_cons_self _ _)
    simp [List.dropWhile_cons, hx,
      ih (fun y hy => hall y (List.mem_cons_of_mem _ hy))]

/-- A scan over an all-satisfying list takes everything. -/
theorem takeWhile_all (p : Char → Bool) (l : List Char)
    (hall : ∀ x ∈ l, p x = true) : l.takeWhile p = l := by
  induction l with
  | nil => rfl
  | cons x xs ih =>
    have hx := hall x (List.mem_cons_self _ _)
    simp [List.takeWhile_cons, hx,
      ih (fun y hy => hall y (List.mem_cons_of_mem _ hy))]

/-- A drop over an all-satisfying list drops everything. -/
theorem dropWhile_all (p : Char → Bool) (l : List Char)
    (hall : ∀ x ∈ l, p x = true) : l.dropWhile p = [] := by
  induction l with
  | nil => rfl
  | cons x xs ih =>
    have hx := hall x (List.mem_cons_self _ _)
    simp [List.dropWhile_cons, hx,
      ih (fun y hy => hall y (List.mem_cons_of_mem _ hy))]

/-- `str.strip` is the identity when neither end is whitespace. -/
theorem pyStrip_id (l : List Char)
    (hh : ∃ x xs, l = x :: xs ∧ isPySpace x = false)
    (hl : ∃ y ys, l.reverse = y :: ys ∧ isPySpace y = false) :
    pyStrip l = l := by
  have e1 : l.dropWhile isPySpace = l := by
    obtain ⟨x, xs, hx, hxs⟩ := hh
    rw [hx]
    simp [List.dropWhile_cons, hxs]
  have e2 : l.reverse.dropWhile isPySpace = l.reverse := by
    obtain ⟨y, ys, hy, hys⟩ := hl
    rw [hy]
    simp [List.dropWhile_cons, hys]
  unfold pyStrip
  rw [e1, e2, List.reverse_reverse]

/-- Characters with different codes differ. -/
theorem char_ne_of_toNat {c d : Char} (h : c.toNat ≠ d.toNat) : c ≠ d :=
  fun he => h (by rw [he])

/-- A code-bounded character differs from everything above the bound. -/
theorem ne_char_of_le {c d : Char} (n : Nat) (h : c.toNat ≤ n)
    (hd : n < d.toNat) : c ≠ d :=
  char_ne_of_toNat (by omega)

/-- A code-bounded character differs from everything below the bound. -/
theorem ne_char_of_ge {c d : Char} (n : Nat) (h : n ≤ c.toNat)
    (hd : d.toNat < n) : c ≠ d :=
  char_ne_of_toNat (by omega)

/-- Everything the round-trip needs to know about a decimal-digit
character, derived from its code range. -/
theorem digit_facts {c : Char} (h48 : 48 ≤ c.toNat) (h57 : c.toNat ≤ 57) :
    isDigitC c = true ∧ isJsonWs c = false ∧ isPySpace c = false ∧
    c ≠ '{' ∧ c ≠ '[' ∧ c ≠ '"' ∧ c ≠ 't' ∧ c ≠ 'f' ∧ c ≠ 'n' ∧ c ≠ '-' ∧
    c ≠ ']' ∧ c ≠ '}' ∧ c ≠ ',' ∧ c ≠ '`' ∧ c ≠ ':' := by
  refine ⟨by simp [isDigitC, h48, h57], ?_, ?_,
    ne_char_of_le 57 h57 (by decide), ne_char_of_le 57 h57 (by decide),
    ne_char_of_ge 48 h48 (by decide), ne_char_of_le 57 h57 (by decide),
    ne_char_of_le 57 h57 (by decide), ne_char_of_le 57 h57 (by decide),
    ne_char_of_ge 48 h48 (by decide), ne_char_of_le 57 h57 (by decide),
    ne_char_of_le 57 h57 (by decide), ne_char_of_ge 48 h48 (by decide),
    ne_char_of_le 57 h57 (by decide), ne_char_of_le 57 h57 (by decide)⟩
  · simp [isJsonWs, ne_char_of_ge 48 h48 (show (' ').toNat < 48 by decide),
      ne_char_of_ge 48 h48 (show ('\t').toNat < 48 by decide),
      ne_char_of_ge 48 h48 (show ('\n').toNat < 48 by decide),
      ne_char_of_ge 48 h48 (show ('\r').toNat < 48 by decide)]
  · simp [isPySpace, ne_char_of_ge 48 h48 (show (' ').toNat < 48 by decide),
      ne_char_of_ge 48 h48 (show ('\t').toNat < 48 by decide),
      ne_char_of_ge 48 h48 (show ('\n').toNat < 48 by decide),
      ne_char_of_ge 48 h48 (show ('\r').toNat < 48 by decide),
      ne_char_of_ge 48 h48 (show ('\x0b').toNat < 48 by decide),
      ne_char_of_ge 48 h48 (show ('\x0c').toNat < 48 by decide)]

/-- The digits produced for a natural number are ASCII digits. -/
theorem natCharsGo_range : ∀ (fuel n : Nat), ∀ c ∈ natCharsGo fuel n,
    48 ≤ c.toNat ∧ c.toNat ≤ 57 := by
  intro fuel
  induction fuel with
  | zero => intro n c hc; cases hc
  | succ fuel ih =>
    intro n c hc
    by_cases h : n < 10
    · simp only [natCharsGo, h, if_true, List.mem_singleton] at hc
      subst hc
      interval_cases n <;> exact ⟨by decide, by decide⟩
    · simp only [natCharsGo, h, if_false, List.mem_append,
        List.mem_singleton] at hc
      rcases hc with hc | hc
      · exact ih _ c hc
      · subst hc
        have hm : n % 10 < 10 := Nat.mod_lt _ (by norm_num)
        set m := n % 10 with hmdef
        interval_cases m <;> exact ⟨by decide, by decide⟩

/-- The digit list of a natural number is never empty. -/
theorem natChars_ne_nil (n : Nat) : natChars n ≠ [] := by
  unfold natChars natCharsGo
  by_cases h : n < 10 <;> simp [h]

/-- Appending one digit multiplies the value by ten and adds it. -/
theorem digitsToNat_append (l : List Char) (c : Char) :
    digitsToNat (l ++ [c]) = digitsToNat l * 10 + digitVal c := by
  simp [digitsToNat, List.foldl_append]

/-- The value of one produced digit character. -/
theorem digitVal_ofNat (d : Nat) (h : d < 10) :
    digitVal (Char.ofNat (48 + d)) = d := by
  interval_cases d <;> decide

/-- The produced digit list evaluates back to the number. -/
theorem natCharsGo_val : ∀ (fuel n : Nat), n < fuel →
    digitsToNat (natCharsGo fuel n) = n := by
  intro fuel
  induction fuel with
  | zero => intro n h; omega
  | succ fuel ih =>
    intro n h
    by_cases h10 : n < 10
    · simp only [natCharsGo, h10, if_true]
      show digitsToNat [Char.ofNat (48 + n)] = n
      simp [digitsToNat, digitVal_ofNat n h10]
    · simp only [natCharsGo, h10, if_false]
      have hdiv : n / 10 < n := Nat.div_lt_self (by omega) (by norm_num)
      rw [digitsToNat_append, ih (n / 10) (by omega),
        digitVal_ofNat _ (Nat.mod_lt _ (by norm_num))]
      omega

/-- `digitsToNat` inverts `natChars`. -/
theorem natChars_val (n : Nat) : digitsToNat (natChars n) = n :=
  natCharsGo_val _ _ (by omega)

/-- Parsing the rendered digits of a number recovers it, provided the
remainder does not begin with another digit. -/
theorem parseNatNum_natChars (m : Nat) (rest : List Char)
    (hrest : digitGuard rest = true) :
    parseNatNum (natChars m ++ rest) = some (m, rest) := by
  have hall : ∀ c ∈ natChars m, isDigitC c = true := fun c hc =>
    (digit_facts (natCharsGo_range _ _ c hc).1 (natCharsGo_range _ _ c hc).2).1
  have htake : (natChars m ++ rest).takeWhile isDigitC = natChars m := by
    cases rest with
    | nil => simpa using takeWhile_all _ _ hall
    | cons c rs =>
      exact takeWhile_append_stop _ _ _ _ hall
        (by simpa [digitGuard] using hrest)
  have hdrop : (natChars m ++ rest).dropWhile isDigitC = rest := by
    cases rest with
    | nil => simpa using dropWhile_all _ _ hall
    | cons c rs =>
      exact dropWhile_append_stop _ _ _ _ hall
        (by simpa [digitGuard] using hrest)
  unfold parseNatNum
  simp only [htake, hdrop]
  have hne : (natChars m).isEmpty = false := by
    cases h : natChars m with
    | nil => exact absurd h (natChars_ne_nil m)
    | cons c cs => rfl
  simp [hne, natChars_val]

/-- Safe characters avoid every delimiter the parser cares about. -/
theorem safeChar_facts {c : Char} (h : safeChar c = true) :
    c ≠ '"' ∧ c ≠ '\\' ∧ c ≠ '{' ∧ c ≠ '}' ∧ c ≠ '`' := by
  refine ⟨?_, ?_, ?_, ?_, ?_⟩ <;> (intro he; subst he; revert h; decide)

/-- One step of the string-body parser over a safe character. -/
theorem parseStringChars_step (acc rest : List Char) (c : Char)
    (h1 : c ≠ '"') (h2 : c ≠ '\\') :
    parseStringChars acc (c :: rest) = parseStringChars (c :: acc) rest := by
  rw [parseStringChars.eq_def]
  simp [h1, h2]

/-- The string-body parser at the closing quote. -/
theorem parseStringChars_quote (acc rest : List Char) :
    parseStringChars acc ('"' :: rest) = some (String.mk acc.reverse, rest) := by
  rw [parseStringChars.eq_def]
  simp

/-- Parsing the body of a rendered safe string stops at the closing
quote. -/
theorem parseStringChars_safe (l : List Char) :
    ∀ (acc rest : List Char), (∀ c ∈ l, safeChar c = true) →
    parseStringChars acc (l ++ '"' :: rest) =
      some (String.mk (acc.reverse ++ l), rest) := by
  induction l with
  | nil =>
    intro acc rest _
    rw [List.nil_append, parseStringChars_quote, List.append_nil]
  | cons c cs ih =>
    intro acc rest hall
    have hc := safeChar_facts (hall c (List.mem_cons_self _ _))
    rw [List.cons_append, parseStringChars_step acc _ c hc.1 hc.2.1,
      ih (c :: acc) rest (fun y hy => hall y (List.mem_cons_of_mem _ hy))]
    simp

/-- Every rendered value begins with a character that is not whitespace
and not a closing delimiter. -/
theorem render_head (v : Json) : ∃ c cs, render v = c :: cs ∧
    isJsonWs c = false ∧ c ≠ ']' ∧ c ≠ '}' := by
  cases v with
  | null => refine ⟨'n', _, rfl, ?_, ?_, ?_⟩ <;> decide
  | bool b =>
    cases b with
    | true => refine ⟨'t', _, rfl, ?_, ?_, ?_⟩ <;> decide
    | false => refine ⟨'f', _, rfl, ?_, ?_, ?_⟩ <;> decide
  | num n =>
    cases n with
    | ofNat m =>
      cases hnc : natChars m with
      | nil => exact absurd hnc (natChars_ne_nil m)
      | cons c cs =>
        have hr := natCharsGo_range _ _ c (by rw [natChars] at hnc; rw [hnc]; simp)
        obtain ⟨_, hws, _, _, _, _, _, _, _, _, hrb, hcb, _, _, _⟩ :=
          digit_facts hr.1 hr.2
        exact ⟨c, cs, by simpa [render, intChars] using hnc, hws, hrb, hcb⟩
    | negSucc m => refine ⟨'-', _, rfl, ?_, ?_, ?_⟩ <;> decide
  | str s => refine ⟨'"', _, rfl, ?_, ?_, ?_⟩ <;> decide
  | arr xs =>
    cases xs with
    | nil => refine ⟨'[', _, rfl, ?_, ?_, ?_⟩ <;> decide
    | cons x xs => refine ⟨'[', _, rfl, ?_, ?_, ?_⟩ <;> decide
  | obj fs =>
    cases fs with
    | nil => refine ⟨'{', _, rfl, ?_, ?_, ?_⟩ <;> decide
    | cons f fs => refine ⟨'{', _, rfl, ?_, ?_, ?_⟩ <;> decide

mutual

/-- A safely rendered value contains no backtick. -/
theorem render_no_backtick (v : Json) (h : safeJson v = true) :
    '`' ∉ render v := by
  cases v with
  | null => decide
  | bool b => cases b <;> decide
  | num n =>
    cases n with
    | ofNat m =>
      intro hmem
      exact absurd
        (natCharsGo_range _ _ _
          (by simpa [render, intChars, natChars] using hmem)).2
        (by decide)
    | negSucc m =>
      intro hmem
      have h2 : '`' ∈ natChars (m + 1) := by
        simpa [render, intChars] using hmem
      exact absurd (natCharsGo_range _ _ _ (by simpa [natChars] using h2)).2
        (by decide)
  | str s =>
    intro hmem
    have hall : ∀ x ∈ s.data, safeChar x = true :=
      List.all_eq_true.mp (by simpa [safeJson] using h)
    rcases List.mem_cons.mp hmem with h1 | h2
    · exact absurd h1 (by decide)
    rcases List.mem_append.mp h2 with h3 | h4
    · exact absurd rfl (safeChar_facts (hall _ h3)).2.2.2.2
    · exact absurd (List.mem_singleton.mp h4) (by decide)
  | arr xs =>
    intro hmem
    rcases List.mem_cons.mp hmem with h1 | h2
    · exact absurd h1 (by decide)
    rcases List.mem_append.mp h2 with h3 | h4
    · exact renderElemsR_no_backtick xs (by simpa [safeJson] using h) h3
    · exact absurd (List.mem_singleton.mp h4) (by decide)
  | obj fs =>
    intro hmem
    rcases List.mem_cons.mp hmem with h1 | h2
    · exact absurd h1 (by decide)
    rcases List.mem_append.mp h2 with h3 | h4
    · exact renderFieldsR_no_backtick fs (by simpa [safeJson] using h) h3
    · exact absurd (List.mem_singleton.mp h4) (by decide)

/-- Safely rendered members contain no backtick. -/
theorem renderFieldsR_no_backtick (fs : List (String × Json))
    (h : safeJsonF fs = true) : '`' ∉ renderFieldsR fs := by
  cases fs with
  | nil => simp [renderFieldsR]
  | cons f fs =>
    obtain ⟨k, v⟩ := f
    obtain ⟨⟨hk, hv⟩, hfs⟩ :
        ((∀ x ∈ k.data, safeChar x = true) ∧ safeJson v = true) ∧
          safeJsonF fs = true := by
      simpa [safeJsonF, Bool.and_eq_true, List.all_eq_true] using h
    have hkey : '`' ∉ k.data := fun hmem =>
      absurd rfl (safeChar_facts (hk _ hmem)).2.2.2.2
    cases fs with
    | nil =>
      intro hmem
      have h2 : '`' ∈ k.data ∨ '`' ∈ render v := by
        simpa [renderFieldsR] using hmem
      rcases h2 with h3 | h4
      · exact hkey h3
      · exact render_no_backtick v hv h4
    | cons f2 fs2 =>
      intro hmem
      have h2 : '`' ∈ k.data ∨ '`' ∈ render v ∨
          '`' ∈ renderFieldsR (f2 :: fs2) := by
        simpa [renderFieldsR] using hmem
      rcases h2 with h3 | h4 | h5
      · exact hkey h3
      · exact render_no_backtick v hv h4
      · exact renderFieldsR_no_backtick (f2 :: fs2) hfs h5

/-- Safely rendered elements contain no backtick. -/
theorem renderElemsR_no_backtick (xs : List Json)
    (h : safeJsonL xs = true) : '`' ∉ renderElemsR xs := by
  cases xs with
  | nil => simp [renderElemsR]
  | cons x xs =>
    obtain ⟨hx, hxs⟩ : safeJson x = true ∧ safeJsonL xs = true := by
      simpa [safeJsonL, Bool.and_eq_true] using h
    cases xs with
    | nil =>
      intro hmem
      exact render_no_backtick x hx (by simpa [renderElemsR] using hmem)
    | cons x2 xs2 =>
      intro hmem
      have h2 : '`' ∈ render x ∨ '`' ∈ renderElemsR (x2 :: xs2) := by
        simpa [renderElemsR] using hmem
      rcases h2 with h3 | h4
      · exact render_no_backtick x hx h3
      · exact renderElemsR_no_backtick (x2 :: xs2) hxs h4

end

/-- Pattern 2 never matches backtick-free content. -/
theorem p2Search_no_backtick (l : List Char) (h : '`' ∉ l) :
    p2Search l = none := by
  induction l with
  | nil => rfl
  | cons c rest ih =>
    have hc : '`' ≠ c := fun he => h (by rw [he]; exact List.mem_cons_self _ _)
    have hrest : '`' ∉ rest := fun hm => h (List.mem_cons_of_mem _ hm)
    have hat : p2AtStart (c :: rest) = none := by
      unfold p2AtStart
      have hpre : fenceJson.isPrefixOf (c :: rest) = false := by
        simp [fenceJson, List.isPrefixOf, hc]
      simp [hpre]
    simp only [p2Search, hat]
    exact ih hrest

/-- Pattern 3 never matches backtick-free content. -/
theorem p3Search_no_backtick (l : List Char) (h : '`' ∉ l) :
    p3Search l = none := by
  induction l with
  | nil => rfl
  | cons c rest ih =>
    have hc : '`' ≠ c := fun he => h (by rw [he]; exact List.mem_cons_self _ _)
    have hrest : '`' ∉ rest := fun hm => h (List.mem_cons_of_mem _ hm)
    have hat : p3AtStart (c :: rest) = none := by
      unfold p3AtStart
      have hpre : fence3.isPrefixOf (c :: rest) = false := by
        simp [fence3, List.isPrefixOf, hc]
      simp [hpre]
    simp only [p3Search, hat]
    exact ih hrest

/-- C9 counterexample: for the allow-listed name `add` and the argument
object `{"name":"add"}`, the parser matches regex pattern 1 against the
embedded object, json-parses that fragment, and returns the call
`("add", {})` — the original argument object is lost, so the round-trip
to a structured call with identical arguments fails. -/
theorem text_parser_drops_nested_name_arguments :
    parseTextToolCall (toolCallContent "add" cxArgs) ["add"] =
      some ("add", Json.obj []) ∧
    Json.obj [] ≠ cxArgs := by
  refine ⟨rfl, ?_⟩
  intro h
  simp [cxArgs] at h


/-- Whitespace skipping is the identity on a non-whitespace head. -/
theorem skipWs_cons (c : Char) (rest : List Char) (h : isJsonWs c = false) :
    skipWs (c :: rest) = c :: rest := by
  simp [skipWs, List.dropWhile_cons, h]

/-- The parsing fuel of a value is positive. -/
theorem jsize_pos (v : Json) : 1 ≤ jsize v := by
  cases v <;> simp only [jsize] <;> omega

/-- The parsing fuel of object members is positive. -/
theorem jsizeF_pos (fs : List (String × Json)) : 1 ≤ jsizeF fs := by
  cases fs with
  | nil => simp [jsizeF]
  | cons f fs => obtain ⟨k, v⟩ := f; simp only [jsizeF]; omega

/-- The parsing fuel of array elements is positive. -/
theorem jsizeL_pos (xs : List Json) : 1 ≤ jsizeL xs := by
  cases xs with
  | nil => simp [jsizeL]
  | cons x xs => simp only [jsizeL]; omega

/-- Parsing the rendered digits of a number recovers it. -/
theorem parseNumber_natChars (m : Nat) (rest : List Char)
    (hrest : digitGuard rest = true) :
    parseNumber (natChars m ++ rest) = some (Json.num (Int.ofNat m), rest) := by
  cases hnc : natChars m with
  | nil => exact absurd hnc (natChars_ne_nil m)
  | cons c cs =>
    have hr := natCharsGo_range _ _ c (by rw [natChars] at hnc; rw [hnc]; simp)
    have hne7 := (digit_facts hr.1 hr.2).2.2.2.2.2.2.2.2.2.1
    rw [List.cons_append]
    simp only [parseNumber]
    rw [if_neg hne7]
    rw [← List.cons_append]
    rw [← hnc]
    rw [parseNatNum_natChars m rest hrest]
    rfl
/-- The value parser accepts the rendering of `null`. -/
theorem parseVal_null (fuel : Nat) (rest : List Char) :
    parseVal (fuel + 1) (render Json.null ++ rest) = some (Json.null, rest) := by
  simp +decide [render, parseVal, skipWs, List.dropWhile, isJsonWs, List.isPrefixOf]

/-- The value parser accepts the rendering of `true`. -/
theorem parseVal_true (fuel : Nat) (rest : List Char) :
    parseVal (fuel + 1) (render (Json.bool true) ++ rest) =
      some (Json.bool true, rest) := by
  simp +decide [render, parseVal, skipWs, List.dropWhile, isJsonWs, List.isPrefixOf]

/-- The value parser accepts the rendering of `false`. -/
theorem parseVal_false (fuel : Nat) (rest : List Char) :
    parseVal (fuel + 1) (render (Json.bool false) ++ rest) =
      some (Json.bool false, rest) := by
  simp +decide [render, parseVal, skipWs, List.dropWhile, isJsonWs, List.isPrefixOf]

/-- The value parser accepts the rendering of a safe string. -/
theorem parseVal_str (fuel : Nat) (s : String) (rest : List Char)
    (hsafe : s.data.all safeChar = true) :
    parseVal (fuel + 1) (render (Json.str s) ++ rest) =
      some (Json.str s, rest) := by
  have hall : ∀ c ∈ s.data, safeChar c = true := by
    intro c hc; exact List.all_eq_true.mp hsafe c hc
  have hps := parseStringChars_safe s.data [] rest hall
  simp only [render, List.cons_append, List.append_assoc, List.cons_append]
  simp +decide [parseVal, skipWs, List.dropWhile, isJsonWs]
  rw [show (s.data ++ '"' :: rest : List Char) = s.data ++ '"' :: rest from rfl] at hps
  simp [hps]

/-- The value parser accepts the rendering of an integer, provided the
remainder does not begin with a digit. -/
theorem parseVal_num (fuel : Nat) (n : Int) (rest : List Char)
    (hdg : digitGuard rest = true) :
    parseVal (fuel + 1) (render (Json.num n) ++ rest) =
      some (Json.num n, rest) := by
  cases n with
  | ofNat m =>
    cases hnc : natChars m with
    | nil => exact absurd hnc (natChars_ne_nil m)
    | cons c cs =>
      have hr := natCharsGo_range _ _ c (by rw [natChars] at hnc; rw [hnc]; simp)
      obtain ⟨hdig, hws, _, hbrace, hbrk, hquo, ht, hf, hn, hneg, _, _, _, _, _⟩ :=
        digit_facts hr.1 hr.2
      have hren : render (Json.num (Int.ofNat m)) = c :: cs := by
        simp [render, intChars, hnc]
      rw [hren, List.cons_append]
      simp only [parseVal, skipWs_cons _ _ hws]
      rw [if_neg hbrace, if_neg hbrk, if_neg hquo, if_neg ht, if_neg hf, if_neg hn]
      rw [if_pos (by simp [hdig])]
      rw [← List.cons_append, ← hren]
      have := parseNumber_natChars m rest hdg
      simp only [render, intChars]
      rw [hnc, List.cons_append] at this ⊢
      exact this
  | negSucc m =>
    have hren : render (Json.num (Int.negSucc m)) = '-' :: natChars (m + 1) := by
      simp [render, intChars]
    have hws : skipWs ('-' :: (natChars (m + 1) ++ rest)) =
        '-' :: (natChars (m + 1) ++ rest) := skipWs_cons _ _ (by decide)
    rw [hren, List.cons_append]
    simp only [parseVal, hws]
    simp +decide [parseNumber]
    rw [parseNatNum_natChars (m + 1) rest hdg]
    simp [Int.negSucc_eq]
/-- Rendered elements begin with a character that is neither whitespace
nor a closing delimiter. -/
theorem renderElemsR_head (x : Json) (xs : List Json) : ∃ c cs,
    renderElemsR (x :: xs) = c :: cs ∧ isJsonWs c = false ∧ c ≠ ']' ∧ c ≠ '}' := by
  obtain ⟨c, cs0, hhd, h1, h2, h3⟩ := render_head x
  cases xs with
  | nil => exact ⟨c, cs0, by simp [renderElemsR, hhd], h1, h2, h3⟩
  | cons y ys =>
    exact ⟨c, cs0 ++ ',' :: renderElemsR (y :: ys),
      by simp [renderElemsR, hhd], h1, h2, h3⟩

/-- Rendered members begin with the opening quote of the first key. -/
theorem renderFieldsR_shape (k : String) (w : Json) (fs : List (String × Json)) :
    ∃ tail, renderFieldsR ((k, w) :: fs) = '"' :: tail := by
  cases fs with
  | nil => exact ⟨k.data ++ '"' :: ':' :: render w, by simp [renderFieldsR]⟩
  | cons f2 fs =>
    exact ⟨k.data ++ '"' :: ':' :: render w ++ ',' :: renderFieldsR (f2 :: fs),
      by simp [renderFieldsR]⟩

/-- Rebuilding a string from its characters is the identity. -/
theorem String_mk_data (s : String) : String.mk s.data = s := rfl

/-- Parser correctness on rendered values, by induction on fuel: with
fuel at least the value size, parsing a safely rendered value (or
non-empty member or element list) consumes exactly the rendering and
returns the value. -/
theorem parse_render_go : ∀ fuel : Nat,
    (∀ v rest, jsize v ≤ fuel → safeJson v = true → digitGuard rest = true →
      parseVal fuel (render v ++ rest) = some (v, rest)) ∧
    (∀ v vs rest, jsizeL (v :: vs) ≤ fuel → safeJsonL (v :: vs) = true →
      parseElems fuel (renderElemsR (v :: vs) ++ ']' :: rest) =
        some (v :: vs, rest)) ∧
    (∀ k w fs rest, jsizeF ((k, w) :: fs) ≤ fuel →
      safeJsonF ((k, w) :: fs) = true →
      parseMembers fuel (renderFieldsR ((k, w) :: fs) ++ '}' :: rest) =
        some ((k, w) :: fs, rest)) := by
  intro fuel
  induction fuel with
  | zero =>
    refine ⟨?_, ?_, ?_⟩
    · intro v rest hsz _ _
      have := jsize_pos v; omega
    · intro v vs rest hsz _
      have := jsize_pos v
      have := jsizeL_pos vs
      simp only [jsizeL] at hsz; omega
    · intro k w fs rest hsz _
      have := jsize_pos w
      have := jsizeF_pos fs
      simp only [jsizeF] at hsz; omega
  | succ fuel ih =>
    obtain ⟨ihV, ihE, ihM⟩ := ih
    refine ⟨?_, ?_, ?_⟩
    · intro v rest hsz hsafe hdg
      cases v with
      | null => exact parseVal_null fuel rest
      | bool b => cases b with
        | true => exact parseVal_true fuel rest
        | false => exact parseVal_false fuel rest
      | num n => exact parseVal_num fuel n rest hdg
      | str s => exact parseVal_str fuel s rest (by simpa [safeJson] using hsafe)
      | arr xs =>
        cases xs with
        | nil =>
          simp +decide [render, renderElemsR, parseVal, skipWs, List.dropWhile,
            isJsonWs]
        | cons x xs =>
          have hszL : jsizeL (x :: xs) ≤ fuel := by
            simp only [jsize] at hsz; omega
          have hsafeL : safeJsonL (x :: xs) = true := by
            simpa [safeJson] using hsafe
          have hE := ihE x xs rest hszL hsafeL
          obtain ⟨c, cs, hhd, hws, hbrk, hbrc⟩ := renderElemsR_head x xs
          have harr : render (Json.arr (x :: xs)) ++ rest =
              '[' :: (renderElemsR (x :: xs) ++ ']' :: rest) := by
            simp [render]
          have hsk2 : skipWs (renderElemsR (x :: xs) ++ ']' :: rest) =
              renderElemsR (x :: xs) ++ ']' :: rest := by
            rw [hhd, List.cons_append]; exact skipWs_cons _ _ hws
          rw [harr]
          have hsk : skipWs ('[' :: (renderElemsR (x :: xs) ++ ']' :: rest)) =
              '[' :: (renderElemsR (x :: xs) ++ ']' :: rest) :=
            skipWs_cons _ _ (by decide)
          simp only [parseVal, hsk]
          rw [if_neg (by decide)]
          simp only [if_true]
          split
          · next rest2 heq =>
            rw [hsk2, hhd, List.cons_append] at heq
            exact absurd (List.cons.injEq .. ▸ heq).1 hbrk
          · next =>
            rw [hsk2, hE]
            rfl
      | obj fs =>
        cases fs with
        | nil =>
          simp +decide [render, renderFieldsR, parseVal, skipWs, List.dropWhile,
            isJsonWs]
        | cons f fs =>
          obtain ⟨k, w⟩ := f
          have hszF : jsizeF ((k, w) :: fs) ≤ fuel := by
            simp only [jsize] at hsz; omega
          have hsafeF : safeJsonF ((k, w) :: fs) = true := by
            simpa [safeJson] using hsafe
          have hM := ihM k w fs rest hszF hsafeF
          obtain ⟨tail, htl⟩ := renderFieldsR_shape k w fs
          have hobj : render (Json.obj ((k, w) :: fs)) ++ rest =
              '{' :: (renderFieldsR ((k, w) :: fs) ++ '}' :: rest) := by
            simp [render]
          have hsk2 : skipWs (renderFieldsR ((k, w) :: fs) ++ '}' :: rest) =
              renderFieldsR ((k, w) :: fs) ++ '}' :: rest := by
            rw [htl, List.cons_append]; exact skipWs_cons _ _ (by decide)
          rw [hobj]
          have hsk : skipWs ('{' :: (renderFieldsR ((k, w) :: fs) ++ '}' :: rest)) =
              '{' :: (renderFieldsR ((k, w) :: fs) ++ '}' :: rest) :=
            skipWs_cons _ _ (by decide)
          simp only [parseVal, hsk, if_true]
          split
          · next rest2 heq =>
            rw [hsk2, htl, List.cons_append] at heq
            exact absurd (List.cons.injEq .. ▸ heq).1 (by decide)
          · next =>
            rw [hsk2, hM]
            rfl
    · intro v vs rest hsz hsafe
      simp only [jsizeL] at hsz
      simp only [safeJsonL, Bool.and_eq_true] at hsafe
      have hszv : jsize v ≤ fuel := by have := jsizeL_pos vs; omega
      cases vs with
      | nil =>
        have hV := ihV v (']' :: rest) hszv hsafe.1 (by simp +decide [digitGuard])
        simp only [renderElemsR]
        simp only [parseElems]
        rw [hV]
        simp +decide [skipWs, List.dropWhile, isJsonWs]
      | cons y ys =>
        have hV := ihV v (',' :: (renderElemsR (y :: ys) ++ ']' :: rest))
          hszv hsafe.1 (by simp +decide [digitGuard])
        have hszL : jsizeL (y :: ys) ≤ fuel := by
          have := jsize_pos v; omega
        have hE := ihE y ys rest hszL hsafe.2
        have harr : renderElemsR (v :: y :: ys) ++ ']' :: rest =
            render v ++ (',' :: (renderElemsR (y :: ys) ++ ']' :: rest)) := by
          simp [renderElemsR]
        rw [harr]
        simp only [parseElems]
        rw [hV]
        simp +decide [skipWs, List.dropWhile, isJsonWs, hE]
    · intro k w fs rest hsz hsafe
      have hskq : ∀ T : List Char, skipWs ('"' :: T) = '"' :: T := fun T =>
        skipWs_cons _ _ (by decide)
      cases fs with
      | nil =>
        simp only [jsizeF] at hsz
        simp only [safeJsonF, Bool.and_true, Bool.and_eq_true] at hsafe
        obtain ⟨hk, hw⟩ := hsafe
        have hszw : jsize w ≤ fuel := by omega
        have hkAll : ∀ c ∈ k.data, safeChar c = true := fun c hc =>
          List.all_eq_true.mp hk c hc
        have hV := ihV w ('}' :: rest) hszw hw (by simp +decide [digitGuard])
        have hps := parseStringChars_safe k.data []
          (':' :: (render w ++ '}' :: rest)) hkAll
        simp only [List.reverse_nil, List.nil_append, String_mk_data] at hps
        have hin : renderFieldsR ((k, w) :: []) ++ '}' :: rest =
            '"' :: (k.data ++ '"' :: (':' :: (render w ++ '}' :: rest))) := by
          simp [renderFieldsR]
        rw [hin]
        simp only [parseMembers, hskq]
        simp +decide [hps, hV, skipWs, List.dropWhile, isJsonWs]
      | cons f2 fs2 =>
        obtain ⟨k2, w2⟩ := f2
        simp only [jsizeF] at hsz
        simp only [safeJsonF, Bool.and_eq_true] at hsafe
        obtain ⟨⟨hk, hw⟩, hrest⟩ := hsafe
        have hfs : safeJsonF ((k2, w2) :: fs2) = true := by
          simp only [safeJsonF, Bool.and_eq_true]
          exact hrest
        have hszw : jsize w ≤ fuel := by omega
        have hkAll : ∀ c ∈ k.data, safeChar c = true := fun c hc =>
          List.all_eq_true.mp hk c hc
        have hV := ihV w
          (',' :: (renderFieldsR ((k2, w2) :: fs2) ++ '}' :: rest))
          hszw hw (by simp +decide [digitGuard])
        have hszF : jsizeF ((k2, w2) :: fs2) ≤ fuel := by
          simp only [jsizeF]
          have := jsize_pos w
          omega
        have hM := ihM k2 w2 fs2 rest hszF hfs
        have hps := parseStringChars_safe k.data []
          (':' :: (render w ++
            ',' :: (renderFieldsR ((k2, w2) :: fs2) ++ '}' :: rest))) hkAll
        simp only [List.reverse_nil, List.nil_append, String_mk_data] at hps
        have hin : renderFieldsR ((k, w) :: (k2, w2) :: fs2) ++ '}' :: rest =
            '"' :: (k.data ++ '"' :: (':' :: (render w ++
              ',' :: (renderFieldsR ((k2, w2) :: fs2) ++ '}' :: rest)))) := by
          simp [renderFieldsR]
        rw [hin]
        simp only [parseMembers, hskq]
        simp +decide [hps, hV, hM, skipWs, List.dropWhile, isJsonWs]
mutual

/-- The fuel needed for a value is within twice its rendered length, so
the fuel budget of `jsonLoads` always suffices. -/
theorem jsize_le_render (v : Json) : jsize v ≤ 2 * (render v).length := by
  cases v with
  | null => decide
  | bool b => cases b <;> decide
  | num n =>
    cases n with
    | ofNat m =>
      have h1 : 1 ≤ (natChars m).length :=
        List.length_pos.mpr (natChars_ne_nil m)
      simp only [jsize, render, intChars]
      omega
    | negSucc m =>
      simp only [jsize, render, intChars, List.length_cons]
      omega
  | str s =>
    simp only [jsize, render, List.length_cons, List.length_append]
    omega
  | arr xs =>
    have h := jsizeL_le_render xs
    simp only [jsize, render, List.length_cons, List.length_append]
    omega
  | obj fs =>
    have h := jsizeF_le_render fs
    simp only [jsize, render, List.length_cons, List.length_append]
    omega

/-- Element-list companion of `jsize_le_render`. -/
theorem jsizeL_le_render (xs : List Json) :
    jsizeL xs ≤ 2 * (renderElemsR xs).length + 2 := by
  cases xs with
  | nil => decide
  | cons v vs =>
    have hv := jsize_le_render v
    cases vs with
    | nil =>
      simp only [jsizeL, renderElemsR]
      omega
    | cons v2 vs2 =>
      have hvs := jsizeL_le_render (v2 :: vs2)
      simp only [jsizeL] at hvs ⊢
      simp only [renderElemsR, List.length_append, List.length_cons]
      omega

/-- Member-list companion of `jsize_le_render`. -/
theorem jsizeF_le_render (fs : List (String × Json)) :
    jsizeF fs ≤ 2 * (renderFieldsR fs).length + 2 := by
  cases fs with
  | nil => decide
  | cons f fs =>
    obtain ⟨k, v⟩ := f
    have hv := jsize_le_render v
    cases fs with
    | nil =>
      simp only [jsizeF, renderFieldsR, List.length_append, List.length_cons]
      omega
    | cons f2 fs2 =>
      have hfs := jsizeF_le_render (f2 :: fs2)
      simp only [jsizeF] at hfs ⊢
      simp only [renderFieldsR, List.length_append, List.length_cons]
      omega

end
/-- A prefix of a suffix is an infix. -/
theorem infix_of_prefix_suffix {l1 l2 l3 : List Char} (h1 : l1 <+: l2)
    (h2 : l2 <:+ l3) : l1 <:+: l3 := by
  obtain ⟨t, ht⟩ := h1
  obtain ⟨s, hs⟩ := h2
  exact ⟨s, t, by rw [List.append_assoc, ht, hs]⟩

/-- The pattern 1 backtracking scan fails when the tail fails after every
name-literal occurrence. -/
theorem p1Go_none (rest : List Char)
    (h : ∀ k, nameLit.isPrefixOf (rest.drop k) = true →
      p1Tail (rest.drop (k + 6)) = none) :
    ∀ n, p1Go rest n = none := by
  intro n
  induction n with
  | zero => rfl
  | succ k ih =>
    simp only [p1Go]
    cases hp : nameLit.isPrefixOf (rest.drop k) with
    | false => simpa [hp] using ih
    | true => simp [hp, h k hp, ih]

/-- Pattern 1 at an opening brace unfolds to the backtracking scan. -/
theorem p1AtStart_brace (rest : List Char) :
    p1AtStart ('{' :: rest) =
      p1Go rest ((rest.takeWhile (fun c => !isBrace c)).length + 1) := rfl

/-- Pattern 1 is anchored at an opening brace. -/
theorem p1AtStart_not_brace (c : Char) (l : List Char) (h : c ≠ '{') :
    p1AtStart (c :: l) = none := by
  unfold p1AtStart
  split
  · next rest heq => exact absurd (List.cons.injEq .. ▸ heq).1 h
  · rfl

/-- The pattern 1 search fails when it fails at every start position. -/
theorem p1Search_none (l : List Char)
    (h : ∀ s, s <:+ l → p1AtStart s = none) : p1Search l = none := by
  induction l with
  | nil => rfl
  | cons c rest ih =>
    simp only [p1Search, h (c :: rest) (List.suffix_refl _)]
    exact ih (fun s hs => h s (hs.trans (List.suffix_cons c rest)))
/-- On the canonical content, the pattern 1 tail after the leading
name key runs into the opening brace of the argument object before any
closing brace, so the anchored match at the content head fails. -/
theorem p1Tail_fails (x : String) (fs : List (String × Json))
    (hx : ∀ c ∈ x.data, safeChar c = true) (hne : x.data ≠ []) :
    p1Tail (':' :: '"' :: (x.data ++ '"' :: ',' :: '"' :: 'a' :: 'r' :: 'g' ::
      'u' :: 'm' :: 'e' :: 'n' :: 't' :: 's' :: '"' :: ':' ::
      (render (Json.obj fs) ++ ['}']))) = none := by
  have hq : ∀ c ∈ x.data, (c != '"') = true := fun c hc => by
    have := (safeChar_facts (hx c hc)).1
    simpa [bne_iff_ne] using this
  have htake : (x.data ++ '"' :: ',' :: '"' :: 'a' :: 'r' :: 'g' :: 'u' ::
      'm' :: 'e' :: 'n' :: 't' :: 's' :: '"' :: ':' ::
      (render (Json.obj fs) ++ ['}'])).takeWhile (fun c => c != '"') =
      x.data :=
    takeWhile_append_stop _ _ _ _ hq (by decide)
  have hdrop : (x.data ++ '"' :: ',' :: '"' :: 'a' :: 'r' :: 'g' :: 'u' ::
      'm' :: 'e' :: 'n' :: 't' :: 's' :: '"' :: ':' ::
      (render (Json.obj fs) ++ ['}'])).dropWhile (fun c => c != '"') =
      '"' :: ',' :: '"' :: 'a' :: 'r' :: 'g' :: 'u' ::
      'm' :: 'e' :: 'n' :: 't' :: 's' :: '"' :: ':' ::
      (render (Json.obj fs) ++ ['}']) :=
    dropWhile_append_stop _ _ _ _ hq (by decide)
  have hA : render (Json.obj fs) ++ ['}'] =
      '{' :: (renderFieldsR fs ++ ['}'] ++ ['}']) := by
    cases fs <;> simp [render]
  have hdrop2 : (',' :: '"' :: 'a' :: 'r' :: 'g' :: 'u' :: 'm' :: 'e' ::
      'n' :: 't' :: 's' :: '"' :: ':' ::
      (render (Json.obj fs) ++ ['}'])).dropWhile (fun c => !isBrace c) =
      '{' :: (renderFieldsR fs ++ ['}'] ++ ['}']) := by
    rw [hA]
    exact dropWhile_append_stop _
      [',', '"', 'a', 'r', 'g', 'u', 'm', 'e', 'n', 't', 's', '"', ':']
      _ _ (by decide) (by decide)
  have hemp : x.data.isEmpty = false := by
    cases hd : x.data with
    | nil => exact absurd hd hne
    | cons c cs => rfl
  simp +decide [p1Tail, expectChar, List.dropWhile_cons, isPySpace,
    htake, hdrop, hdrop2, hemp]
/-- C9 (amended): the text-tool-call round-trip holds whenever the quoted
name token occurs only as the leading key.  For an allow-listed safe tool
name and a safe JSON argument object whose serialization embeds no further
quoted name token, parsing the content produced for the call returns
exactly that name and that argument object. -/
theorem text_parser_round_trip (x : String) (fs : List (String × Json))
    (allowed : List String)
    (hname : safeName x = true)
    (hsafe : safeJson (Json.obj fs) = true)
    (hmem : x ∈ allowed)
    (hnodup : ¬ (nameLit <:+:
      (toolCallContent x (Json.obj fs)).data.drop 2)) :
    parseTextToolCall (toolCallContent x (Json.obj fs)) allowed =
      some (x, Json.obj fs) := by
  have hxall : x.data.all safeChar = true := by
    have h := hname
    simp only [safeName, Bool.and_eq_true] at h
    exact h.2
  have hxmem : ∀ c ∈ x.data, safeChar c = true := fun c hc =>
    List.all_eq_true.mp hxall c hc
  have hxne : x.data ≠ [] := by
    have h := hname
    simp only [safeName, Bool.and_eq_true] at h
    intro he
    rw [he] at h
    simp at h
  have hsafeF : safeJsonF fs = true := by simpa [safeJson] using hsafe
  have hfields : safeJson (Json.obj
      [("name", Json.str x), ("arguments", Json.obj fs)]) = true := by
    simp +decide [safeJson, safeJsonF, hxall, hsafeF]
  have hcontent : (toolCallContent x (Json.obj fs)).data =
      '{' :: (renderFieldsR
        [("name", Json.str x), ("arguments", Json.obj fs)] ++ ['}']) := by
    simp [toolCallContent, render]
  have hR : renderFieldsR
      [("name", Json.str x), ("arguments", Json.obj fs)] ++ ['}'] =
      nameLit ++ ':' :: '"' :: (x.data ++ '"' :: ',' :: '"' :: 'a' :: 'r' ::
        'g' :: 'u' :: 'm' :: 'e' :: 'n' :: 't' :: 's' :: '"' :: ':' ::
        (render (Json.obj fs) ++ ['}'])) := by
    simp [renderFieldsR, render, nameLit,
      show "name".data = ['n', 'a', 'm', 'e'] from rfl,
      show "arguments".data =
        ['a', 'r', 'g', 'u', 'm', 'e', 'n', 't', 's'] from rfl]
  have hRt : renderFieldsR
      [("name", Json.str x), ("arguments", Json.obj fs)] ++ ['}'] =
      '"' :: (['n', 'a', 'm', 'e', '"'] ++ ':' :: '"' :: (x.data ++ '"' ::
        ',' :: '"' :: 'a' :: 'r' :: 'g' :: 'u' :: 'm' :: 'e' :: 'n' :: 't' ::
        's' :: '"' :: ':' :: (render (Json.obj fs) ++ ['}']))) := by
    rw [hR]
    simp [nameLit]
  have hdrop2 : (toolCallContent x (Json.obj fs)).data.drop 2 =
      ['n', 'a', 'm', 'e', '"'] ++ ':' :: '"' :: (x.data ++ '"' ::
        ',' :: '"' :: 'a' :: 'r' :: 'g' :: 'u' :: 'm' :: 'e' :: 'n' :: 't' ::
        's' :: '"' :: ':' :: (render (Json.obj fs) ++ ['}'])) := by
    rw [hcontent, hRt]
    simp
  have hnodup2 : ¬ (nameLit <:+:
      (['n', 'a', 'm', 'e', '"'] ++ ':' :: '"' :: (x.data ++ '"' ::
        ',' :: '"' :: 'a' :: 'r' :: 'g' :: 'u' :: 'm' :: 'e' :: 'n' :: 't' ::
        's' :: '"' :: ':' :: (render (Json.obj fs) ++ ['}'])))) := by
    rw [hdrop2] at hnodup
    exact hnodup
  have hAll : ∀ s, s <:+ ('{' :: (renderFieldsR
      [("name", Json.str x), ("arguments", Json.obj fs)] ++ ['}'])) →
      p1AtStart s = none := by
    intro s hs
    rcases List.suffix_cons_iff.mp hs with heq | hsR
    · subst heq
      rw [p1AtStart_brace]
      refine p1Go_none _ ?_ _
      intro k hk
      cases k with
      | zero =>
        show p1Tail ((renderFieldsR
          [("name", Json.str x), ("arguments", Json.obj fs)] ++ ['}']).drop 6)
          = none
        rw [hR, List.drop_left' (show nameLit.length = 6 from rfl)]
        exact p1Tail_fails x fs hxmem hxne
      | succ k2 =>
        exfalso
        have hpre := List.isPrefixOf_iff_prefix.mp hk
        rw [hRt] at hpre
        have hsuf : (('"' :: (['n', 'a', 'm', 'e', '"'] ++ ':' :: '"' ::
            (x.data ++ '"' :: ',' :: '"' :: 'a' :: 'r' :: 'g' :: 'u' :: 'm' ::
            'e' :: 'n' :: 't' :: 's' :: '"' :: ':' ::
            (render (Json.obj fs) ++ ['}'])))).drop (k2 + 1)) <:+
            (['n', 'a', 'm', 'e', '"'] ++ ':' :: '"' :: (x.data ++ '"' ::
            ',' :: '"' :: 'a' :: 'r' :: 'g' :: 'u' :: 'm' :: 'e' :: 'n' ::
            't' :: 's' :: '"' :: ':' :: (render (Json.obj fs) ++ ['}']))) := by
          rw [List.drop_succ_cons]
          exact List.drop_suffix _ _
        exact hnodup2 (infix_of_prefix_suffix hpre hsuf)
    · cases s with
      | nil => rfl
      | cons c s2 =>
        by_cases hc : c = '{'
        · subst hc
          rw [p1AtStart_brace]
          refine p1Go_none _ ?_ _
          intro k hk
          exfalso
          obtain ⟨pre, hpre⟩ := hsR
          rw [hRt] at hpre
          cases pre with
          | nil =>
            rw [List.nil_append] at hpre
            exact absurd (List.cons.injEq .. ▸ hpre).1 (by decide)
          | cons p0 pre2 =>
            rw [List.cons_append] at hpre
            have h2 := (List.cons.injEq .. ▸ hpre).2
            have hs2 : s2 <:+ (['n', 'a', 'm', 'e', '"'] ++ ':' :: '"' ::
                (x.data ++ '"' :: ',' :: '"' :: 'a' :: 'r' :: 'g' :: 'u' ::
                'm' :: 'e' :: 'n' :: 't' :: 's' :: '"' :: ':' ::
                (render (Json.obj fs) ++ ['}']))) :=
              ⟨pre2 ++ ['{'], by rw [← h2]; simp⟩
            have hsufk := (List.drop_suffix k s2).trans hs2
            exact hnodup2
              (infix_of_prefix_suffix (List.isPrefixOf_iff_prefix.mp hk) hsufk)
        · exact p1AtStart_not_brace c s2 hc
  have hp1 : p1Search ((toolCallContent x (Json.obj fs)).data) = none := by
    rw [hcontent]
    exact p1Search_none _ hAll
  have hnb : '`' ∉ (toolCallContent x (Json.obj fs)).data :=
    render_no_backtick _ hfields
  have hp2 : p2Search ((toolCallContent x (Json.obj fs)).data) = none :=
    p2Search_no_backtick _ hnb
  have hp3 : p3Search ((toolCallContent x (Json.obj fs)).data) = none :=
    p3Search_no_backtick _ hnb
  have hrev : ((toolCallContent x (Json.obj fs)).data).reverse =
      '}' :: ('{' :: renderFieldsR
        [("name", Json.str x), ("arguments", Json.obj fs)]).reverse := by
    rw [hcontent]
    simp
  have hstrip : pyStrip ((toolCallContent x (Json.obj fs)).data) =
      (toolCallContent x (Json.obj fs)).data := by
    refine pyStrip_id _ ⟨'{', _, hcontent, by decide⟩ ⟨'}', _, hrev, by decide⟩
  have hhead : headIs ((toolCallContent x (Json.obj fs)).data) '{' = true := by
    rw [hcontent]; rfl
  have hlast : lastIs ((toolCallContent x (Json.obj fs)).data) '}' = true := by
    unfold lastIs
    rw [hrev]; rfl
  have hpv : parseVal (2 * ((toolCallContent x (Json.obj fs)).data).length + 2)
      ((toolCallContent x (Json.obj fs)).data) =
      some (Json.obj [("name", Json.str x), ("arguments", Json.obj fs)], []) := by
    have hb := jsize_le_render
      (Json.obj [("name", Json.str x), ("arguments", Json.obj fs)])
    have h := (parse_render_go
        (2 * ((toolCallContent x (Json.obj fs)).data).length + 2)).1
      (Json.obj [("name", Json.str x), ("arguments", Json.obj fs)]) []
      (by
        have hlen : (toolCallContent x (Json.obj fs)).data = render
          (Json.obj [("name", Json.str x), ("arguments", Json.obj fs)]) := rfl
        rw [hlen]
        omega)
      hfields rfl
    simpa using h
  have hload : jsonLoads ((toolCallContent x (Json.obj fs)).data) =
      some (Json.obj [("name", Json.str x), ("arguments", Json.obj fs)]) := by
    unfold jsonLoads
    rw [hpv]
    rfl
  have hext : extractArguments
      [("name", Json.str x), ("arguments", Json.obj fs)] = Json.obj fs := by
    cases fs with
    | nil => simp +decide [extractArguments, Json.objGet, Json.truthy]
    | cons f fs2 => simp +decide [extractArguments, Json.objGet, Json.truthy]
  have htc : toolCallFromJson
      (Json.obj [("name", Json.str x), ("arguments", Json.obj fs)]) allowed =
      some (x, Json.obj fs) := by
    simp +decide [toolCallFromJson, Json.objGet, hmem, hext]
  have hemp : ((toolCallContent x (Json.obj fs)).data).isEmpty = false := by
    rw [hcontent]; rfl
  show parseTextToolCallL ((toolCallContent x (Json.obj fs)).data) allowed =
    some (x, Json.obj fs)
  rw [parseTextToolCallL]
  simp only [hemp, Bool.false_eq_true, if_false, hstrip, hp1, hp2, hp3,
    hhead, hlast, Bool.and_self, if_true, hload, htc]
/-- Witness for C9: the concrete call of `add` with arguments `a = 2`,
`b = 3` satisfies every hypothesis and round-trips. -/
theorem text_parser_round_trip_witness :
    safeName "add" = true ∧
    safeJson (Json.obj [("a", Json.num 2), ("b", Json.num 3)]) = true ∧
    "add" ∈ ["add"] ∧
    ¬ (nameLit <:+: (toolCallContent "add"
      (Json.obj [("a", Json.num 2), ("b", Json.num 3)])).data.drop 2) ∧
    parseTextToolCall (toolCallContent "add"
        (Json.obj [("a", Json.num 2), ("b", Json.num 3)])) ["add"] =
      some ("add", Json.obj [("a", Json.num 2), ("b", Json.num 3)]) :=
  ⟨by decide, by decide, by decide, by decide,
    text_parser_round_trip "add" [("a", Json.num 2), ("b", Json.num 3)]
      ["add"] (by decide) (by decide) (by decide) (by decide)⟩
end AgentOrch
